import Mathlib

/-! # nanorpc plain-text packer

A shallow embedding of `nanorpc::packer::plain_text`
(`src/include/nanorpc/packer/plain_text.h`): the `serializer` that renders values as
whitespace-separated text tokens, and the `deserializer` that reads them back through
the formatted extraction operators of `std::istream`.

The C++ templates are instantiated over a universe of static types `Ty`; a value of
such a type is a `Val`.  Output streams are the list of bytes written so far, input
streams are the unread bytes together with the `eofbit` and `failbit` flags.  What an
uninitialised scalar holds is a parameter `u` of the deserializer, and every statement
about the deserializer holds for all `u`.
-/

namespace nanorpc.packer

/-! ## Bytes, buffers and streams -/

/-- The byte buffer `core::type::buffer` (a `std::vector<char>`). -/
abbrev buffer := List Char

/-- The bytes a `filtering_ostream` over `back_inserter(*buffer_)` has written. -/
abbrev ostream := List Char

/-- The input stream over the buffer: unread bytes and the two state flags that
formatted extraction reads and writes. -/
structure istream where
  data : List Char
  eofbit : Bool
  failbit : Bool
  deriving DecidableEq

/-- The stream state `good()`: neither `eofbit` nor `failbit` is set. -/
def istream.good (s : istream) : Bool := !s.eofbit && !s.failbit

/-- A stream opened on a buffer: cursor at the first byte, no flag set. -/
def istream.open_on (b : buffer) : istream := ⟨b, false, false⟩

/-- The classification `std::isspace` in the "C" locale: space, `\t`, `\n`, `\v`, `\f`, `\r`. -/
def isspace (c : Char) : Bool := c.toNat == 32 || (9 ≤ c.toNat && c.toNat ≤ 13)

/-- The classification `std::isdigit`: the ten decimal digits. -/
def isdigit (c : Char) : Bool := 48 ≤ c.toNat && c.toNat ≤ 57

/-- Smallest value of `int` (32 bits). -/
def INT_MIN : Int := -2147483648

/-- Largest value of `int` (32 bits). -/
def INT_MAX : Int := 2147483647

/-- Largest value of `std::size_t` (64 bits). -/
def SIZE_MAX : Nat := 18446744073709551615

/-! ## The universe of static types and their values -/

/-- Static types the templates are instantiated at. -/
inductive Ty where
  /-- The type `int`, a primitive. -/
  | int : Ty
  /-- The type `std::size_t`, a primitive. -/
  | size : Ty
  /-- The type `std::string`, a primitive (it has stream operators). -/
  | string : Ty
  /-- The type `std::tuple<T...>`. -/
  | tuple : List Ty → Ty
  /-- The type `std::vector<T>`. -/
  | vector : Ty → Ty
  /-- The type `std::set<T>`. -/
  | set : Ty → Ty
  /-- The type `std::map<K, V>`. -/
  | map : Ty → Ty → Ty
  /-- The type `std::pair<K const, V>`, the element type of a map. -/
  | pair : Ty → Ty → Ty
  /-- A class that `detail::to_tuple` decomposes into fields of these types, at least
  one: the templates reject a class with an empty decomposition. -/
  | aggregate : List Ty → Ty

/-- Values of the static types.  Collections list their elements in iteration order. -/
inductive Val where
  | int : Int → Val
  | size : Nat → Val
  | string : List Char → Val
  | tuple : List Val → Val
  | vector : List Val → Val
  | set : List Val → Val
  | map : List Val → Val
  | pair : Val → Val → Val
  | aggregate : List Val → Val

/-- The elements (tuple positions, collection elements, aggregate fields) of a value. -/
def Val.elems : Val → List Val
  | .tuple vs => vs
  | .vector vs => vs
  | .set vs => vs
  | .map vs => vs
  | .aggregate vs => vs
  | _ => []

/-- The key of a map entry: `first` of the pair. -/
def Val.key : Val → Val
  | .pair k _ => k
  | v => v

mutual
/-- The value-initialised object of a type: zero, the empty string, the empty collection,
member-wise for tuples, pairs and aggregates. -/
def Ty.value_init : Ty → Val
  | .int => .int 0
  | .size => .size 0
  | .string => .string []
  | .tuple ts => .tuple (Ty.value_init_list ts)
  | .vector _ => .vector []
  | .set _ => .set []
  | .map _ _ => .map []
  | .pair k v => .pair (Ty.value_init k) (Ty.value_init v)
  | .aggregate ts => .aggregate (Ty.value_init_list ts)
/-- Member-wise value initialisation. -/
def Ty.value_init_list : List Ty → List Val
  | [] => []
  | t :: ts => Ty.value_init t :: Ty.value_init_list ts
end

/-- The bits held by storage that the program never wrote.  The collection loop of the
deserializer declares `value_type item;` afresh in each iteration, and a scalar `item`
is left uninitialised: what it holds is decided by nothing in the program, so it is a
parameter of the deserializer, about which nothing is assumed.  The argument is the
number of iterations of the loop that are still to come.  An `item` is read as it was
declared only after an extraction has failed; from then on every count stays 0, so at
most one loop of a stream ever does so. -/
abbrev indeterminate := Nat → Nat

/-- Storage in which every bit is zero: one of the contents that never-written storage
may have, for the closed examples, which need one. -/
def zero_bits : indeterminate := fun _ => 0

/-- The `int` whose 32 bits are the low bits of `bits`, in two's complement. -/
def int_of_bits (bits : Nat) : Int :=
  if bits % 2 ^ 32 < 2 ^ 31 then ((bits % 2 ^ 32 : Nat) : Int)
  else ((bits % 2 ^ 32 : Nat) : Int) - 2 ^ 32

/-- The `std::size_t` whose 64 bits are the low bits of `bits`. -/
def size_of_bits (bits : Nat) : Nat := bits % 2 ^ 64

/-- The default-initialised object `T item;` over storage that holds `bits`: an `int`
or a `std::size_t` is not initialised and shows the bits of its storage; a string, a
container, a tuple and a pair run their default constructor, which value-initialises.
The scalar members of a class are left uninitialised as well, but the class overload of
`unpack_value` assigns the whole object before any member is read: a class is given its
value-initialised members. -/
def Ty.default_init (bits : Nat) : Ty → Val
  | .int => .int (int_of_bits bits)
  | .size => .size (size_of_bits bits)
  | t => Ty.value_init t

/-! ## Text formatting: `operator<<` -/

/-- The character of a decimal digit. -/
def digit_char (d : Nat) : Char := Char.ofNat (48 + d)

/-- Decimal digits of a number, most significant first, by repeated division. -/
def nat_text_fuel : Nat → Nat → List Char
  | 0, _ => []
  | fuel + 1, n =>
    if n < 10 then [digit_char n] else nat_text_fuel fuel (n / 10) ++ [digit_char (n % 10)]

/-- The text `operator<<` writes for an unsigned integer: its decimal digits. -/
def nat_text (n : Nat) : List Char := nat_text_fuel (n + 1) n

/-- The text `operator<<` writes for an `int`: a minus sign when negative, then the
decimal digits of the magnitude. -/
def int_text (n : Int) : List Char :=
  if n < 0 then '-' :: nat_text n.natAbs else nat_text n.natAbs

/-! ## The serializer -/

/-- Modelled from the spec: `detail::to_tuple`, whose header is not among the sources,
decomposes a class value into the tuple of its fields in declaration order (`first` and
`second` for a pair), and gives the empty tuple for what it cannot decompose. -/
def detail.to_tuple : Val → Val
  | .aggregate fields => .tuple fields
  | .pair first second => .tuple [first, second]
  | _ => .tuple []

namespace plain_text

mutual
/-- The overload set `serializer::pack_value`, applied to the stream `*stream_`. -/
def serializer.pack_value : Val → ostream → ostream
  -- is_serializable_v<T>:  *stream_ << value << ' ';
  | .int n, out => out ++ int_text n ++ [' ']
  | .size n, out => out ++ nat_text n ++ [' ']
  | .string str, out => out ++ str ++ [' ']
  -- is_tuple_v<T>:  pack_tuple(value, index_sequence)
  | .tuple vs, out => serializer.pack_tuple vs out
  -- is_iterable_v<T>:  pack_value(value.size()); for (auto const &i : value) pack_value(i);
  | .vector vs, out => serializer.pack_items vs (out ++ nat_text vs.length ++ [' '])
  | .set vs, out => serializer.pack_items vs (out ++ nat_text vs.length ++ [' '])
  | .map vs, out => serializer.pack_items vs (out ++ nat_text vs.length ++ [' '])
  -- class type:  pack_user_defined_type(value), i.e. pack_value(detail::to_tuple(value)):
  -- the tuple overload on the fields, (first, second) for a pair
  | .pair k v, out =>
    serializer.pack_value v (serializer.pack_value k out ++ [' ']) ++ [' ']
  | .aggregate vs, out => serializer.pack_tuple vs out
/-- The fold `(pack_tuple_item(std::get<I>(tuple)), ...)` of `serializer::pack_tuple`:
each item is packed and followed by one more space. -/
def serializer.pack_tuple : List Val → ostream → ostream
  | [], out => out
  | v :: vs, out => serializer.pack_tuple vs (serializer.pack_value v out ++ [' '])
/-- The loop `for (auto const &i : value) pack_value(i);`. -/
def serializer.pack_items : List Val → ostream → ostream
  | [], out => out
  | v :: vs, out => serializer.pack_items vs (serializer.pack_value v out)
end

/-- The exception thrown on misuse: `std::runtime_error` with its message. -/
inductive error where
  | runtime_error : String → error
  deriving DecidableEq

/-- The class `serializer`.  The members `buffer_` and `stream_` are set and reset
together; `none` is the null state left by a move or by `to_buffer`, `some out` a live
stream that has written `out` into the buffer. -/
structure serializer where
  stream_ : Option ostream
  deriving DecidableEq

/-- The private default constructor `serializer{}`: an empty buffer with a stream on it. -/
def serializer.fresh : serializer := ⟨some []⟩

/-- The member `serializer::pack`.  Returns the serializer it returns (move-constructed
from `*this`) and the state `*this` is left in.  On a null `stream_` the `assert` stops
the program or, with assertions compiled out, the `runtime_error` is thrown: both are
the error. -/
def serializer.pack (self : serializer) (value : Val) :
    Except error (serializer × serializer) :=
  match self.stream_ with
  | none => .error (.runtime_error "[pack] Empty stream.")
  | some out => .ok (⟨some (serializer.pack_value value out)⟩, ⟨none⟩)

/-- The member `serializer::to_buffer`.  Returns the buffer and the state `*this` is
left in: `stream_` and `buffer_` are reset. -/
def serializer.to_buffer (self : serializer) : Except error (buffer × serializer) :=
  match self.stream_ with
  | none => .error (.runtime_error "[to_buffer] Empty stream.")
  | some out => .ok (out, ⟨none⟩)

/-- The member `plain_text::pack`: `serializer{}.pack(value)`. -/
def pack (value : Val) : Except error serializer :=
  match serializer.fresh.pack value with
  | .ok r => .ok r.1
  | .error e => .error e

end plain_text

/-! ## Text parsing: `operator>>` -/

/-- The value of a run of decimal digits. -/
def digits_value (ds : List Char) : Nat :=
  ds.foldl (fun acc c => 10 * acc + (c.toNat - 48)) 0

/-- The constructor of `std::istream::sentry` with `skipws` set: a stream that is not
good gets `failbit` and yields false; otherwise leading whitespace is skipped, and
running into the end of the input sets `eofbit` and `failbit` and yields false. -/
def sentry (s : istream) : Bool × istream :=
  if s.good then
    match s.data.dropWhile isspace with
    | [] => (false, ⟨[], true, true⟩)
    | c :: cs => (true, ⟨c :: cs, s.eofbit, s.failbit⟩)
  else (false, ⟨s.data, s.eofbit, true⟩)

/-- The optional sign in front of a number: whether it is a minus, and what follows. -/
def scan_sign : List Char → Bool × List Char
  | [] => (false, [])
  | c :: cs => if c = '-' then (true, cs) else if c = '+' then (false, cs) else (false, c :: cs)

/-- The operator `stream >> value` for `int`: after the sentry, an optional sign and
the longest run of digits are consumed.  No digit: zero is stored and `failbit` set.
A magnitude out of range: the nearest limit is stored and `failbit` set.  Reaching the
end of the input while scanning sets `eofbit`.  A false sentry leaves the value alone. -/
def extract_int (value : Val) (s : istream) : Val × istream :=
  let st := sentry s
  if st.1 then
    let sg := scan_sign st.2.data
    let sp := sg.2.span isdigit
    let n := digits_value sp.1
    let eof := sp.2.isEmpty
    if sp.1.isEmpty then (.int 0, ⟨sp.2, eof, true⟩)
    else if sg.1 then
      if (n : Int) ≤ -INT_MIN then (.int (-(n : Int)), ⟨sp.2, eof, false⟩)
      else (.int INT_MIN, ⟨sp.2, eof, true⟩)
    else
      if (n : Int) ≤ INT_MAX then (.int n, ⟨sp.2, eof, false⟩)
      else (.int INT_MAX, ⟨sp.2, eof, true⟩)
  else (value, st.2)

/-- The operator `stream >> value` for `std::size_t`: as for `int`, except that a
magnitude in range after a minus sign is negated modulo `2^64`, and a magnitude out of
range stores the largest value. -/
def extract_size (value : Val) (s : istream) : Val × istream :=
  let st := sentry s
  if st.1 then
    let sg := scan_sign st.2.data
    let sp := sg.2.span isdigit
    let n := digits_value sp.1
    let eof := sp.2.isEmpty
    if sp.1.isEmpty then (.size 0, ⟨sp.2, eof, true⟩)
    else if n ≤ SIZE_MAX then
      (.size (if sg.1 then (SIZE_MAX + 1 - n) % (SIZE_MAX + 1) else n), ⟨sp.2, eof, false⟩)
    else (.size SIZE_MAX, ⟨sp.2, eof, true⟩)
  else (value, st.2)

/-- The operator `stream >> value` for `std::string`: after the sentry, the string is
replaced by the bytes up to the next whitespace or the end of the input. -/
def extract_string (value : Val) (s : istream) : Val × istream :=
  let st := sentry s
  if st.1 then
    let sp := st.2.data.span (fun c => !isspace c)
    (.string sp.1, ⟨sp.2, sp.2.isEmpty, false⟩)
  else (value, st.2)

/-! ## Ordered containers -/

/-- Three-way lexicographic comparison of byte strings (bytes compared as unsigned). -/
def compare_chars : List Char → List Char → Ordering
  | [], [] => .eq
  | [], _ :: _ => .lt
  | _ :: _, [] => .gt
  | a :: as, b :: bs =>
    if a.toNat < b.toNat then .lt else if b.toNat < a.toNat then .gt else compare_chars as bs

mutual
/-- Three-way comparison underlying `operator<` of the standard types: numeric on
integers, lexicographic on strings, tuples, pairs and containers.  Aggregates have no
`operator<`; values of different shapes never meet in one container. -/
def Val.compare : Val → Val → Ordering
  | .int a, .int b => if a < b then .lt else if b < a then .gt else .eq
  | .size a, .size b => if a < b then .lt else if b < a then .gt else .eq
  | .string a, .string b => compare_chars a b
  | .tuple as, .tuple bs => Val.compare_list as bs
  | .vector as, .vector bs => Val.compare_list as bs
  | .set as, .set bs => Val.compare_list as bs
  | .map as, .map bs => Val.compare_list as bs
  | .pair a b, .pair c d =>
    match Val.compare a c with
    | .lt => .lt
    | .gt => .gt
    | .eq => Val.compare b d
  | _, _ => .eq
/-- Three-way lexicographic comparison of element sequences. -/
def Val.compare_list : List Val → List Val → Ordering
  | [], [] => .eq
  | [], _ :: _ => .lt
  | _ :: _, [] => .gt
  | a :: as, b :: bs =>
    match Val.compare a b with
    | .lt => .lt
    | .gt => .gt
    | .eq => Val.compare_list as bs
end

/-- The comparison `a < b` that `std::set` and `std::map` order their keys by. -/
def Val.lt (a b : Val) : Bool :=
  match Val.compare a b with
  | .lt => true
  | _ => false

/-- Insertion into a container of unique keys, found by comparison from the front;
an element with an equivalent key is already there: nothing is inserted. -/
def insert_unique (key : Val → Val) (x : Val) : List Val → List Val
  | [] => [x]
  | a :: as =>
    if Val.lt (key x) (key a) then x :: a :: as
    else if Val.lt (key a) (key x) then a :: insert_unique key x as
    else a :: as

/-- The insertion `c.insert(c.end(), x)` of `std::set` and `std::map`: with the hint
`end()`, an element whose key is greater than the last key is appended; otherwise the
position is searched. -/
def insert_at_end (key : Val → Val) (xs : List Val) (x : Val) : List Val :=
  match xs.getLast? with
  | none => [x]
  | some last => if Val.lt (key last) (key x) then xs ++ [x] else insert_unique key x xs

/-- The insertion `c.insert(c.end(), x)` of `std::vector`. -/
def push_back (xs : List Val) (x : Val) : List Val := xs ++ [x]

/-! ## The deserializer -/

namespace plain_text

/-- The loop of the iterable overload of `deserializer::unpack_value`:
`for (i = 0; i < count; ++i) { value_type item; unpack_value(item);
*std::inserter(value, end(value)) = std::move(item); }`.  The object `item` is declared
anew in each iteration: `item left` is what it holds before `unpack_value(item)` when
`left` iterations are still to come. -/
def deserializer.unpack_items (unpack_item : Val → istream → Val × istream)
    (item : Nat → Val) (insert : List Val → Val → List Val) :
    Nat → List Val → istream → List Val × istream
  | 0, value, s => (value, s)
  | count + 1, value, s =>
    let r := unpack_item (item count) s
    deserializer.unpack_items unpack_item item insert count (insert value r.1) r.2

mutual
/-- The overload set `deserializer::unpack_value`, applied to the destination `value`
and the stream `*stream_`; `u` is what the uninitialised scalars of the loop hold. -/
def deserializer.unpack_value (u : indeterminate) : Ty → Val → istream → Val × istream
  -- is_deserializable_v<T>:  *stream_ >> value;
  | .int, value, s => extract_int value s
  | .size, value, s => extract_size value s
  | .string, value, s => extract_string value s
  -- is_tuple_v<T>:  unpack_tuple(value, index_sequence)
  | .tuple ts, value, s =>
    let r := deserializer.unpack_tuple u ts value.elems s
    (.tuple r.1, r.2)
  -- is_iterable_v<T>:  size_type count{}; unpack_value(count); then the loop
  | .vector t, value, s =>
    let c := extract_size (.size 0) s
    let r := deserializer.unpack_items (fun item s => deserializer.unpack_value u t item s)
      (fun left => Ty.default_init (u left) t) push_back
      (match c.1 with | .size n => n | _ => 0) value.elems c.2
    (.vector r.1, r.2)
  | .set t, value, s =>
    let c := extract_size (.size 0) s
    let r := deserializer.unpack_items (fun item s => deserializer.unpack_value u t item s)
      (fun left => Ty.default_init (u left) t) (insert_at_end id)
      (match c.1 with | .size n => n | _ => 0) value.elems c.2
    (.set r.1, r.2)
  -- for a map, unpack_value(item) is the std::pair<K const, V> overload below
  | .map k v, value, s =>
    let c := extract_size (.size 0) s
    let r := deserializer.unpack_items
      (fun _ s =>
        let a := deserializer.unpack_value u k (Ty.value_init k) s
        let b := deserializer.unpack_value u v (Ty.value_init v) a.2
        (.pair a.1 b.1, b.2))
      (fun _ => Ty.value_init (.pair k v)) (insert_at_end Val.key)
      (match c.1 with | .size n => n | _ => 0) value.elems c.2
    (.map r.1, r.2)
  -- std::pair<K const, V>:  a local pair is unpacked, then exchanged into the destination
  | .pair k v, _, s =>
    let a := deserializer.unpack_value u k (Ty.value_init k) s
    let b := deserializer.unpack_value u v (Ty.value_init v) a.2
    (.pair a.1 b.1, b.2)
  -- class type:  unpack_user_defined_type(value): tuple_type tuple; unpack_value(tuple);
  -- value = make_from_tuple<T>(std::move(tuple), index_sequence);
  | .aggregate ts, _, s =>
    let r := deserializer.unpack_tuple u ts (Ty.value_init_list ts) s
    (.aggregate r.1, r.2)
/-- The fold `(unpack_value(std::get<I>(tuple)), ...)` of `deserializer::unpack_tuple`,
over the positions of the destination tuple. -/
def deserializer.unpack_tuple (u : indeterminate) :
    List Ty → List Val → istream → List Val × istream
  | [], _, s => ([], s)
  | t :: ts, [], s =>
    let a := deserializer.unpack_value u t (Ty.value_init t) s
    let r := deserializer.unpack_tuple u ts [] a.2
    (a.1 :: r.1, r.2)
  | t :: ts, d :: ds, s =>
    let a := deserializer.unpack_value u t d s
    let r := deserializer.unpack_tuple u ts ds a.2
    (a.1 :: r.1, r.2)
end

/-- The member `deserializer::make_from_tuple<T>`: the class value
`T{std::move(std::get<I>(tuple))...}` built from the elements of the tuple. -/
def deserializer.make_from_tuple : Val → Val
  | .tuple vs => .aggregate vs
  | v => v

/-- The class `deserializer`.  The members `buffer_`, `source_` and `stream_` are set
and moved together; `none` is the null state left by a move, `some s` a live stream. -/
structure deserializer where
  stream_ : Option istream
  deriving DecidableEq

/-- The member `deserializer::unpack` at destination type `T`.  Returns the destination
after the call, the deserializer it returns (move-constructed from `*this`) and the
state `*this` is left in.  The guard tests the pointer `stream_`, not the state of the
stream. -/
def deserializer.unpack (u : indeterminate) (self : deserializer) (T : Ty) (value : Val) :
    Except error (Val × deserializer × deserializer) :=
  match self.stream_ with
  | none => .error (.runtime_error "[unpack] Empty stream.")
  | some s =>
    let r := deserializer.unpack_value u T value s
    .ok (r.1, ⟨some r.2⟩, ⟨none⟩)

/-- The member `plain_text::from_buffer`: a deserializer that owns the buffer, with a
stream opened on it. -/
def from_buffer (b : buffer) : deserializer := ⟨some (istream.open_on b)⟩

end plain_text

/-! ## Values of a type, and client call sequences -/

/-- Keys strictly increase from each element to the next: the order invariant of
`std::set` and `std::map`. -/
def strictly_sorted (key : Val → Val) : List Val → Bool
  | [] => true
  | [_] => true
  | a :: b :: rest => Val.lt (key a) (key b) && strictly_sorted key (b :: rest)

mutual
/-- The value `v` is a value of type `T` whose tokens can be told apart in text:
integers lie in the range of their type, strings are non-empty and free of whitespace,
sizes of collections fit `std::size_t`, sets and maps are in key order, aggregates have
at least one field, and all parts are again such values. -/
def Val.well_formed : Ty → Val → Bool
  | .int, .int n => decide (INT_MIN ≤ n) && decide (n ≤ INT_MAX)
  | .size, .size n => decide (n ≤ SIZE_MAX)
  | .string, .string str => !str.isEmpty && str.all (fun c => !isspace c)
  | .tuple ts, .tuple vs => Val.well_formed_list ts vs
  | .vector t, .vector vs => decide (vs.length ≤ SIZE_MAX) && Val.well_formed_all t vs
  | .set t, .set vs =>
    decide (vs.length ≤ SIZE_MAX) && Val.well_formed_all t vs && strictly_sorted id vs
  | .map k v, .map vs =>
    decide (vs.length ≤ SIZE_MAX) && Val.well_formed_all (.pair k v) vs
      && strictly_sorted Val.key vs
  | .pair k v, .pair a b => Val.well_formed k a && Val.well_formed v b
  | .aggregate ts, .aggregate vs => !ts.isEmpty && Val.well_formed_list ts vs
  | _, _ => false
/-- Position-wise well-formedness of the elements of a tuple or the fields of an
aggregate. -/
def Val.well_formed_list : List Ty → List Val → Bool
  | [], [] => true
  | t :: ts, v :: vs => Val.well_formed t v && Val.well_formed_list ts vs
  | _, _ => false
/-- Well-formedness of all elements of a collection at the element type. -/
def Val.well_formed_all : Ty → List Val → Bool
  | _, [] => true
  | t, v :: vs => Val.well_formed t v && Val.well_formed_all t vs
end

/-- The longest run of space bytes a byte sequence ends with. -/
def trailing_spaces (l : List Char) : List Char :=
  (l.reverse.takeWhile (fun c => c == ' ')).reverse

namespace plain_text

/-- The bytes `enc(v)`: what packing `v` writes to an empty stream. -/
def enc (v : Val) : buffer := serializer.pack_value v []

/-- The call chain `s.pack(v1).pack(v2)...pack(vn)`. -/
def pack_chain (s : serializer) : List Val → Except error serializer
  | [] => .ok s
  | v :: vs =>
    match s.pack v with
    | .ok r => pack_chain r.1 vs
    | .error e => .error e

/-- The call chain `plain_text{}.pack(v).pack(v1)...pack(vn)`: the serializer it ends in. -/
def pack_all (v : Val) (vs : List Val) : Except error serializer :=
  match pack v with
  | .error e => .error e
  | .ok s => pack_chain s vs

/-- The call chain `plain_text{}.pack(v).pack(v1)...pack(vn).to_buffer()`. -/
def encode (v : Val) (vs : List Val) : Except error buffer :=
  match pack_all v vs with
  | .error e => .error e
  | .ok s =>
    match s.to_buffer with
    | .ok r => .ok r.1
    | .error e => .error e

/-- The call chain `d.unpack(x1).unpack(x2)...unpack(xn)` over destinations given with
their static types: the destinations after the calls and the deserializer returned. -/
def unpack_chain (u : indeterminate) (d : deserializer) :
    List (Ty × Val) → Except error (List Val × deserializer)
  | [] => .ok ([], d)
  | x :: xs =>
    match d.unpack u x.1 x.2 with
    | .error e => .error e
    | .ok r =>
      match unpack_chain u r.2.1 xs with
      | .error e => .error e
      | .ok r1 => .ok (r.1 :: r1.1, r1.2)

/-- The call chain `from_buffer(b).unpack(x1)...unpack(xn)`: the destinations after it. -/
def decode (u : indeterminate) (b : buffer) (dests : List (Ty × Val)) :
    Except error (List Val) :=
  match unpack_chain u (from_buffer b) dests with
  | .error e => .error e
  | .ok r => .ok r.1

/-- The transfer of a sequence of values: the buffer of `pack(v).pack(v1)...to_buffer()`
handed to `from_buffer(b).unpack(x1)...unpack(xn)`; the destinations after it. -/
def round_trip_chain (u : indeterminate) (v : Val) (vs : List Val) (dests : List (Ty × Val)) :
    Except error (List Val) :=
  match encode v vs with
  | .error e => .error e
  | .ok b => decode u b dests

/-- The round trip of one value: `pack(v).to_buffer()`, then `from_buffer` and `unpack`
into a value-initialised destination of type `T`; the destination after the call. -/
def round_trip (u : indeterminate) (T : Ty) (v : Val) : Except error Val :=
  match encode v [] with
  | .error e => .error e
  | .ok b =>
    match (from_buffer b).unpack u T (Ty.value_init T) with
    | .error e => .error e
    | .ok r => .ok r.1

end plain_text

/-! ## Overload resolution of `pack_value` and `unpack_value` -/

/-- What the `enable_if` conditions ask of a static type `T`.  The traits of
`detail/traits.h` and `detail/to_tuple.h`, which are not among the sources, are taken
as given.  `std::pair` is a class that is neither a `std::tuple` nor iterable. -/
structure type_traits where
  /-- The trait `is_serializable_v<T>`: `ostream << value` compiles. -/
  is_serializable_v : Bool
  /-- The trait `is_deserializable_v<T>`: `istream >> value` compiles. -/
  is_deserializable_v : Bool
  /-- The trait `detail::traits::is_tuple_v<T>` (`detail::is_tuple_v<T>` in the last
  condition): `T` is a `std::tuple`. -/
  is_tuple_v : Bool
  /-- The trait `detail::traits::is_iterable_v<T>`. -/
  is_iterable_v : Bool
  /-- The trait `std::is_class_v<T>`. -/
  is_class_v : Bool
  /-- The size `std::tuple_size_v` of the tuple `detail::to_tuple` gives for a `T`. -/
  to_tuple_size : Nat
  /-- Whether `T` is a `std::pair<K const, V>`. -/
  is_pair_const : Bool
  /-- A pair is a class, no `std::tuple`, and not iterable. -/
  pair_is_plain_class :
    is_pair_const = true → is_class_v = true ∧ is_tuple_v = false ∧ is_iterable_v = false

/-- The overloads of `pack_value` and of `unpack_value`, in source order; the last one
exists for `unpack_value` only. -/
inductive overload where
  /-- The overload under `is_serializable_v<T>` / `is_deserializable_v<T>`. -/
  | primitive : overload
  /-- The overload that calls `pack_tuple` / `unpack_tuple`. -/
  | tuple : overload
  /-- The overload that writes / reads a count and loops over the elements. -/
  | iterable : overload
  /-- The overload that calls `pack_user_defined_type` / `unpack_user_defined_type`. -/
  | user_defined : overload
  /-- The overload `unpack_value(std::pair<K const, V> &)`. -/
  | pair : overload
  deriving DecidableEq

/-- The outcome of compiling a call `pack_value(value)` or `unpack_value(value)`. -/
inductive resolution where
  /-- The one overload the call resolves to. -/
  | selected : overload → resolution
  /-- No overload is enabled: the call does not compile. -/
  | no_match : resolution
  /-- Two overloads of the same signature are enabled: the call is ambiguous. -/
  | ambiguous : resolution
  /-- The class overload is chosen, and `pack_user_defined_type` /
  `unpack_user_defined_type` is disabled because `to_tuple` gives an empty tuple. -/
  | no_decomposition : resolution
  deriving DecidableEq

/-- Overload resolution among function templates of one signature: the single enabled
one, and an error for none or for several. -/
def resolve : List overload → resolution
  | [] => .no_match
  | [o] => .selected o
  | _ :: _ :: _ => .ambiguous

/-- The check of `pack_user_defined_type` / `unpack_user_defined_type`, which is enabled
when `std::tuple_size_v` of the decomposition is not 0. -/
def user_defined_type (T : type_traits) (r : resolution) : resolution :=
  match r with
  | .selected .user_defined => if T.to_tuple_size != 0 then r else .no_decomposition
  | _ => r

namespace plain_text

/-- The overloads of `serializer::pack_value` whose `enable_if` condition holds for `T`
(source lines 112 to 156). -/
def serializer.pack_value_enabled (T : type_traits) : List overload :=
  (if T.is_serializable_v then [.primitive] else []) ++
  (if !T.is_serializable_v && T.is_tuple_v then [.tuple] else []) ++
  (if !T.is_serializable_v && T.is_iterable_v then [.iterable] else []) ++
  (if !T.is_serializable_v && !T.is_iterable_v && !T.is_tuple_v && T.is_class_v
    then [.user_defined] else [])

/-- What the call `pack_value(value)` resolves to for a value of type `T`. -/
def serializer.pack_value_resolution (T : type_traits) : resolution :=
  user_defined_type T (resolve (serializer.pack_value_enabled T))

/-- The constrained overloads of `deserializer::unpack_value` whose `enable_if` condition
holds for `T` (source lines 217 to 290, the pair overload apart). -/
def deserializer.unpack_value_enabled (T : type_traits) : List overload :=
  (if T.is_deserializable_v then [.primitive] else []) ++
  (if !T.is_deserializable_v && T.is_tuple_v then [.tuple] else []) ++
  (if !T.is_deserializable_v && T.is_iterable_v then [.iterable] else []) ++
  (if !T.is_deserializable_v && !T.is_iterable_v && !T.is_tuple_v && T.is_class_v
    then [.user_defined] else [])

/-- What the call `unpack_value(value)` resolves to for a destination of type `T`.  For a
`std::pair<K const, V>` the overload written for it is more specialised than every
overload on `T &`, and is the one chosen. -/
def deserializer.unpack_value_resolution (T : type_traits) : resolution :=
  if T.is_pair_const then .selected .pair
  else user_defined_type T (resolve (deserializer.unpack_value_enabled T))

end plain_text

/-- The traits of the types of the universe: the primitives have stream operators (a
string is iterable as well), tuples are `std::tuple`, the containers are iterable, and
pairs and aggregates are classes that `to_tuple` decomposes into their fields. -/
def Ty.traits : Ty → type_traits
  | .int => ⟨true, true, false, false, false, 0, false, by decide⟩
  | .size => ⟨true, true, false, false, false, 0, false, by decide⟩
  | .string => ⟨true, true, false, true, true, 0, false, by decide⟩
  | .tuple _ => ⟨false, false, true, false, true, 0, false, by decide⟩
  | .vector _ => ⟨false, false, false, true, true, 0, false, by decide⟩
  | .set _ => ⟨false, false, false, true, true, 0, false, by decide⟩
  | .map _ _ => ⟨false, false, false, true, true, 0, false, by decide⟩
  | .pair _ _ => ⟨false, false, false, false, true, 2, true, by decide⟩
  | .aggregate fields => ⟨false, false, false, false, true, fields.length, false, by decide⟩

/-- The overload the embedding of `pack_value` follows for each type of the universe. -/
def Ty.pack_overload : Ty → overload
  | .int => .primitive
  | .size => .primitive
  | .string => .primitive
  | .tuple _ => .tuple
  | .vector _ => .iterable
  | .set _ => .iterable
  | .map _ _ => .iterable
  | .pair _ _ => .user_defined
  | .aggregate _ => .user_defined

/-- The overload the embedding of `unpack_value` follows for each type of the universe. -/
def Ty.unpack_overload : Ty → overload
  | .int => .primitive
  | .size => .primitive
  | .string => .primitive
  | .tuple _ => .tuple
  | .vector _ => .iterable
  | .set _ => .iterable
  | .map _ _ => .iterable
  | .pair _ _ => .pair
  | .aggregate _ => .user_defined

/-- The classification as the specification words it: the first of the four categories,
in the order primitive, tuple, collection, aggregate, that applies to the type; none
when the type is not encodable. -/
def spec_category (stream_convertible fixed_tuple iterable aggregate : Bool) :
    Option overload :=
  if stream_convertible then some .primitive
  else if fixed_tuple then some .tuple
  else if iterable then some .iterable
  else if aggregate then some .user_defined
  else none

/-- The fourth capability: a class that `to_tuple` decomposes into at least one field. -/
def type_traits.is_aggregate (T : type_traits) : Bool :=
  T.is_class_v && T.to_tuple_size != 0

/-! ## The destination after a value has been unpacked into it -/

mutual
/-- The content of a destination `value` of type `T` once the well-formed value `v` has
been unpacked into it, in closed form: a primitive, a pair or an aggregate is replaced
by `v`, a tuple is treated position by position, and a collection keeps its elements and
gets the elements of `v` inserted one after the other. -/
def Val.unpacked_into : Ty → Val → Val → Val
  | .tuple ts, value, .tuple vs => .tuple (Val.unpacked_into_list ts value.elems vs)
  | .vector _, value, .vector vs => .vector (value.elems ++ vs)
  | .set _, value, .set vs => .set (vs.foldl (insert_at_end id) value.elems)
  | .map _ _, value, .map vs => .map (vs.foldl (insert_at_end Val.key) value.elems)
  | _, _, v => v
/-- Position by position, for the elements of a tuple. -/
def Val.unpacked_into_list : List Ty → List Val → List Val → List Val
  | t :: ts, [], v :: vs =>
    Val.unpacked_into t (Ty.value_init t) v :: Val.unpacked_into_list ts [] vs
  | t :: ts, d :: ds, v :: vs => Val.unpacked_into t d v :: Val.unpacked_into_list ts ds vs
  | _, _, _ => []
end

/-- Whitespace squeezed: leading whitespace dropped (`after_space` set) and every later
run of whitespace replaced by one space. -/
def squeeze_from (after_space : Bool) : List Char → List Char
  | [] => []
  | c :: cs =>
    if isspace c then
      if after_space then squeeze_from true cs else ' ' :: squeeze_from true cs
    else c :: squeeze_from false cs

/-- Two streams that differ in the length of their runs of whitespace only: the same
flags, and the same unread bytes once whitespace is squeezed. -/
def istream.same_tokens (s s1 : istream) : Prop :=
  s.eofbit = s1.eofbit ∧ s.failbit = s1.failbit ∧
    squeeze_from true s.data = squeeze_from true s1.data

instance (s s1 : istream) : Decidable (istream.same_tokens s s1) := by
  unfold istream.same_tokens
  infer_instance

/-! ## Characters and decimal text -/

variable (u : indeterminate)

theorem digit_char_toNat (d : Nat) (h : d < 10) : (digit_char d).toNat = 48 + d := by
  interval_cases d <;> rfl

theorem isdigit_digit_char (d : Nat) (h : d < 10) : isdigit (digit_char d) = true := by
  interval_cases d <;> rfl

theorem isspace_of_isdigit (c : Char) (h : isdigit c = true) : isspace c = false := by
  simp only [isdigit, Bool.and_eq_true, decide_eq_true_eq] at h
  simp only [isspace, Bool.or_eq_false_iff, beq_eq_false_iff_ne, ne_eq, Bool.and_eq_false_iff,
    decide_eq_false_iff_not]
  omega

theorem not_sign_of_isdigit (c : Char) (h : isdigit c = true) : c ≠ '-' ∧ c ≠ '+' := by
  constructor <;> (intro hc; subst hc; revert h; decide)

theorem nat_text_fuel_digits (fuel : Nat) : ∀ n, n < fuel →
    (∀ c ∈ nat_text_fuel fuel n, isdigit c = true) ∧ nat_text_fuel fuel n ≠ [] ∧
      digits_value (nat_text_fuel fuel n) = n := by
  induction fuel with
  | zero => intro n h; omega
  | succ fuel ih =>
    intro n h
    unfold nat_text_fuel
    by_cases h10 : n < 10
    · simp only [h10, if_true]
      refine ⟨?_, by simp, ?_⟩
      · intro c hc
        simp only [List.mem_singleton] at hc
        subst hc
        exact isdigit_digit_char n h10
      · simp [digits_value, digit_char_toNat n h10]
    · simp only [h10, if_false]
      have hlt : n / 10 < fuel := by omega
      obtain ⟨h1, _, h3⟩ := ih (n / 10) hlt
      have hm : n % 10 < 10 := Nat.mod_lt _ (by decide)
      refine ⟨?_, by simp, ?_⟩
      · intro c hc
        rcases List.mem_append.mp hc with hc | hc
        · exact h1 c hc
        · simp only [List.mem_singleton] at hc
          subst hc
          exact isdigit_digit_char _ hm
      · unfold digits_value at h3 ⊢
        rw [List.foldl_append, h3]
        simp only [List.foldl_cons, List.foldl_nil, digit_char_toNat _ hm]
        omega

theorem nat_text_isdigit (n : Nat) : ∀ c ∈ nat_text n, isdigit c = true :=
  (nat_text_fuel_digits (n + 1) n (Nat.lt_succ_self n)).1

theorem nat_text_ne_nil (n : Nat) : nat_text n ≠ [] :=
  (nat_text_fuel_digits (n + 1) n (Nat.lt_succ_self n)).2.1

theorem digits_value_nat_text (n : Nat) : digits_value (nat_text n) = n :=
  (nat_text_fuel_digits (n + 1) n (Nat.lt_succ_self n)).2.2

theorem digit_char_eq_digitChar (d : Nat) (h : d < 10) : digit_char d = Nat.digitChar d := by
  interval_cases d <;> rfl

theorem nat_text_fuel_toDigitsCore (fuel : Nat) : ∀ n ds, n < fuel →
    Nat.toDigitsCore 10 fuel n ds = nat_text_fuel fuel n ++ ds := by
  induction fuel with
  | zero => intro n ds h; omega
  | succ fuel ih =>
    intro n ds h
    have hm : n % 10 < 10 := Nat.mod_lt _ (by decide)
    unfold nat_text_fuel
    simp only [Nat.toDigitsCore]
    by_cases h10 : n < 10
    · have h0 : n / 10 = 0 := by omega
      have hmod : n % 10 = n := by omega
      simp [h10, h0, hmod, digit_char_eq_digitChar n h10]
    · have h0 : ¬ n / 10 = 0 := by omega
      simp only [h10, h0, if_false]
      rw [ih (n / 10) _ (by omega), digit_char_eq_digitChar _ hm]
      simp

theorem nat_text_eq_repr (n : Nat) : nat_text n = (Nat.repr n).data := by
  simp only [Nat.repr, Nat.toDigits, List.asString, nat_text]
  rw [nat_text_fuel_toDigitsCore (n + 1) n [] (Nat.lt_succ_self n)]
  simp

/-! ## Runs of trailing spaces -/

theorem trailing_spaces_concat_space (l : List Char) :
    trailing_spaces (l ++ [' ']) = trailing_spaces l ++ [' '] := by
  simp [trailing_spaces, List.takeWhile]

theorem trailing_spaces_concat_ne (l : List Char) (c : Char) (h : c ≠ ' ') :
    trailing_spaces (l ++ [c]) = [] := by
  simp [trailing_spaces, List.takeWhile, h]

theorem trailing_spaces_append_spaces (l sp : List Char) (h : ∀ c ∈ sp, c = ' ') :
    trailing_spaces (l ++ sp) = trailing_spaces l ++ sp := by
  induction sp using List.reverseRecOn with
  | nil => simp
  | append_singleton sp c ih =>
    have hc : c = ' ' := h c (by simp)
    subst hc
    rw [← List.append_assoc, trailing_spaces_concat_space, ih, List.append_assoc]
    intro c hc
    exact h c (by simp [hc])

theorem trailing_spaces_of_spaces (sp : List Char) (h : ∀ c ∈ sp, c = ' ') :
    trailing_spaces sp = sp := by
  have := trailing_spaces_append_spaces [] sp h
  simpa [trailing_spaces] using this

theorem trailing_spaces_all_space (l : List Char) : ∀ c ∈ trailing_spaces l, c = ' ' := by
  intro c hc
  simp only [trailing_spaces, List.mem_reverse] at hc
  have := List.mem_takeWhile_imp hc
  simpa using this

theorem trailing_spaces_append_trailing (a b : List Char) :
    trailing_spaces (trailing_spaces a ++ b) = trailing_spaces (a ++ b) := by
  induction b using List.reverseRecOn with
  | nil =>
    simp only [List.append_nil]
    exact trailing_spaces_of_spaces _ (trailing_spaces_all_space a)
  | append_singleton b c ih =>
    by_cases hc : c = ' '
    · subst hc
      rw [← List.append_assoc, ← List.append_assoc, trailing_spaces_concat_space,
        trailing_spaces_concat_space, ih]
    · rw [← List.append_assoc, ← List.append_assoc, trailing_spaces_concat_ne _ _ hc,
        trailing_spaces_concat_ne _ _ hc]

/-! ## Induction over values -/

theorem Val.induct {P : Val → Prop}
    (int : ∀ n, P (.int n)) (size : ∀ n, P (.size n)) (string : ∀ s, P (.string s))
    (tuple : ∀ vs, (∀ v ∈ vs, P v) → P (.tuple vs))
    (vector : ∀ vs, (∀ v ∈ vs, P v) → P (.vector vs))
    (set : ∀ vs, (∀ v ∈ vs, P v) → P (.set vs))
    (map : ∀ vs, (∀ v ∈ vs, P v) → P (.map vs))
    (pair : ∀ a b, P a → P b → P (.pair a b))
    (aggregate : ∀ vs, (∀ v ∈ vs, P v) → P (.aggregate vs)) : ∀ v, P v := by
  intro v
  refine Val.rec (motive_1 := P) (motive_2 := fun vs => ∀ v ∈ vs, P v)
    int size string tuple vector set map pair aggregate ?_ ?_ v
  · intro v hv
    simp at hv
  · intro head tail hh ht v hv
    rcases List.mem_cons.mp hv with h | h
    · subst h
      exact hh
    · exact ht v h

namespace plain_text

/-! ## Packing appends -/

theorem pack_tuple_append_of (vs : List Val)
    (ih : ∀ v ∈ vs, ∀ out, serializer.pack_value v out = out ++ enc v) :
    ∀ out, serializer.pack_tuple vs out = out ++ serializer.pack_tuple vs [] := by
  induction vs with
  | nil => intro out; simp [serializer.pack_tuple]
  | cons v vs ihl =>
    intro out
    have hv := ih v (by simp)
    have hl := ihl (fun w hw => ih w (by simp [hw]))
    simp only [serializer.pack_tuple]
    rw [hl (serializer.pack_value v out ++ [' ']), hl (serializer.pack_value v [] ++ [' ']),
      hv out, hv []]
    simp [enc]

theorem pack_items_append_of (vs : List Val)
    (ih : ∀ v ∈ vs, ∀ out, serializer.pack_value v out = out ++ enc v) :
    ∀ out, serializer.pack_items vs out = out ++ serializer.pack_items vs [] := by
  induction vs with
  | nil => intro out; simp [serializer.pack_items]
  | cons v vs ihl =>
    intro out
    have hv := ih v (by simp)
    have hl := ihl (fun w hw => ih w (by simp [hw]))
    simp only [serializer.pack_items]
    rw [hl (serializer.pack_value v out), hl (serializer.pack_value v []), hv out, hv []]
    simp [enc]

theorem pack_value_append (v : Val) :
    ∀ out, serializer.pack_value v out = out ++ enc v := by
  induction v using Val.induct with
  | int n => intro out; simp [enc, serializer.pack_value]
  | size n => intro out; simp [enc, serializer.pack_value]
  | string s => intro out; simp [enc, serializer.pack_value]
  | tuple vs ih =>
    intro out
    simp only [enc, serializer.pack_value]
    exact pack_tuple_append_of vs ih out
  | vector vs ih =>
    intro out
    simp only [enc, serializer.pack_value]
    rw [pack_items_append_of vs ih, pack_items_append_of vs ih ([] ++ _ ++ _)]
    simp
  | set vs ih =>
    intro out
    simp only [enc, serializer.pack_value]
    rw [pack_items_append_of vs ih, pack_items_append_of vs ih ([] ++ _ ++ _)]
    simp
  | map vs ih =>
    intro out
    simp only [enc, serializer.pack_value]
    rw [pack_items_append_of vs ih, pack_items_append_of vs ih ([] ++ _ ++ _)]
    simp
  | pair a b iha ihb =>
    intro out
    simp only [enc, serializer.pack_value]
    rw [ihb (serializer.pack_value a out ++ [' ']), ihb (serializer.pack_value a [] ++ [' ']),
      iha out, iha []]
    simp [enc]
  | aggregate vs ih =>
    intro out
    simp only [enc, serializer.pack_value]
    exact pack_tuple_append_of vs ih out

theorem pack_tuple_append (vs : List Val) (out : ostream) :
    serializer.pack_tuple vs out = out ++ serializer.pack_tuple vs [] :=
  pack_tuple_append_of vs (fun v _ => pack_value_append v) out

theorem pack_items_append (vs : List Val) (out : ostream) :
    serializer.pack_items vs out = out ++ serializer.pack_items vs [] :=
  pack_items_append_of vs (fun v _ => pack_value_append v) out

theorem pack_user_defined_type_eq (v : Val) (out : ostream)
    (h : (∃ fields, v = .aggregate fields) ∨ ∃ a b, v = .pair a b) :
    serializer.pack_value v out = serializer.pack_value (detail.to_tuple v) out := by
  rcases h with ⟨fields, rfl⟩ | ⟨a, b, rfl⟩
  · simp only [detail.to_tuple, serializer.pack_value]
  · simp only [detail.to_tuple, serializer.pack_value, serializer.pack_tuple]

theorem pack_tuple_cons (v : Val) (vs : List Val) :
    serializer.pack_tuple (v :: vs) [] = enc v ++ ' ' :: serializer.pack_tuple vs [] := by
  simp only [serializer.pack_tuple]
  rw [pack_tuple_append]
  simp [enc]

theorem pack_items_cons (v : Val) (vs : List Val) :
    serializer.pack_items (v :: vs) [] = enc v ++ serializer.pack_items vs [] := by
  simp only [serializer.pack_items]
  rw [pack_items_append]
  simp [enc]

end plain_text

/-! ## Extraction of a token that was written by `operator<<` -/

theorem dropWhile_spaces (ws : List Char) (c : Char) (r : List Char)
    (hws : ∀ x ∈ ws, x = ' ') (hc : isspace c = false) :
    (ws ++ c :: r).dropWhile isspace = c :: r := by
  induction ws with
  | nil => simp [List.dropWhile, hc]
  | cons w ws ih =>
    have hw : w = ' ' := hws w (by simp)
    subst hw
    have : isspace ' ' = true := by decide
    simp only [List.cons_append, List.dropWhile, this]
    exact ih (fun x hx => hws x (by simp [hx]))

theorem sentry_token (ws : List Char) (c : Char) (r : List Char)
    (hws : ∀ x ∈ ws, x = ' ') (hc : isspace c = false) :
    sentry (istream.open_on (ws ++ c :: r)) = (true, istream.open_on (c :: r)) := by
  simp only [sentry, istream.open_on, istream.good, Bool.not_false, Bool.and_self, if_true,
    dropWhile_spaces ws c r hws hc]

theorem span_token (p : Char → Bool) (l : List Char) (x : Char) (r : List Char)
    (hl : ∀ c ∈ l, p c = true) (hx : p x = false) : (l ++ x :: r).span p = (l, x :: r) := by
  rw [List.span_eq_take_drop]
  induction l with
  | nil => simp [List.takeWhile, List.dropWhile, hx]
  | cons a l ih =>
    have ha : p a = true := hl a (by simp)
    have ih := ih (fun c hc => hl c (by simp [hc]))
    simp only [Prod.mk.injEq] at ih
    simp [List.takeWhile, List.dropWhile, ha, ih.1, ih.2]

theorem scan_sign_digit (c : Char) (r : List Char) (hc : isdigit c = true) :
    scan_sign (c :: r) = (false, c :: r) := by
  have h := not_sign_of_isdigit c hc
  simp [scan_sign, h.1, h.2]

theorem nat_text_head (n : Nat) : ∃ c r, nat_text n = c :: r ∧ isdigit c = true := by
  have hne := nat_text_ne_nil n
  have hd := nat_text_isdigit n
  cases h : nat_text n with
  | nil => exact absurd h hne
  | cons c r => exact ⟨c, r, rfl, hd c (by simp [h])⟩

theorem open_on_data (b : buffer) : (istream.open_on b).data = b := rfl

theorem isdigit_space : isdigit ' ' = false := by decide

theorem extract_size_token (value : Val) (ws rest : List Char) (n : Nat)
    (hws : ∀ x ∈ ws, x = ' ') (hn : n ≤ SIZE_MAX) :
    extract_size value (istream.open_on (ws ++ nat_text n ++ ' ' :: rest)) =
      (.size n, istream.open_on (' ' :: rest)) := by
  obtain ⟨c, r, hcr, hc⟩ := nat_text_head n
  have hsp : (nat_text n ++ ' ' :: rest).span isdigit = (nat_text n, ' ' :: rest) :=
    span_token isdigit _ _ _ (nat_text_isdigit n) isdigit_space
  have hst : sentry (istream.open_on (ws ++ nat_text n ++ ' ' :: rest)) =
      (true, istream.open_on (nat_text n ++ ' ' :: rest)) := by
    rw [hcr, List.append_assoc, List.cons_append]
    exact sentry_token ws c _ hws (isspace_of_isdigit c hc)
  have hsg : scan_sign (nat_text n ++ ' ' :: rest) = (false, nat_text n ++ ' ' :: rest) := by
    rw [hcr, List.cons_append]
    exact scan_sign_digit c _ hc
  have hne : (nat_text n).isEmpty = false := by
    rw [hcr]; rfl
  simp only [extract_size, hst, if_true, open_on_data, hsg, hsp, hne, digits_value_nat_text,
    hn, Bool.false_eq_true, if_false, List.isEmpty_cons]
  rfl

theorem extract_int_token (value : Val) (ws rest : List Char) (n : Int)
    (hws : ∀ x ∈ ws, x = ' ') (hlo : INT_MIN ≤ n) (hhi : n ≤ INT_MAX) :
    extract_int value (istream.open_on (ws ++ int_text n ++ ' ' :: rest)) =
      (.int n, istream.open_on (' ' :: rest)) := by
  obtain ⟨c, r, hcr, hc⟩ := nat_text_head n.natAbs
  have hsp : (nat_text n.natAbs ++ ' ' :: rest).span isdigit =
      (nat_text n.natAbs, ' ' :: rest) :=
    span_token isdigit _ _ _ (nat_text_isdigit _) isdigit_space
  have hne : (nat_text n.natAbs).isEmpty = false := by
    rw [hcr]; rfl
  by_cases hneg : n < 0
  · have hst : sentry (istream.open_on (ws ++ int_text n ++ ' ' :: rest)) =
        (true, istream.open_on ('-' :: (nat_text n.natAbs ++ ' ' :: rest))) := by
      simp only [int_text, hneg, if_true, List.append_assoc, List.cons_append]
      exact sentry_token ws '-' _ hws (by decide)
    have hsg : scan_sign ('-' :: (nat_text n.natAbs ++ ' ' :: rest)) =
        (true, nat_text n.natAbs ++ ' ' :: rest) := by
      simp [scan_sign]
    have habs : ((n.natAbs : Nat) : Int) = -n := by omega
    have hr : ((n.natAbs : Nat) : Int) ≤ -INT_MIN := by
      rw [habs]; omega
    simp only [extract_int, hst, if_true, open_on_data, hsg, hsp, hne,
      digits_value_nat_text, Bool.false_eq_true, if_false, List.isEmpty_cons, habs, neg_neg,
      show -n ≤ -INT_MIN from habs ▸ hr]
    rfl
  · have hst : sentry (istream.open_on (ws ++ int_text n ++ ' ' :: rest)) =
        (true, istream.open_on (nat_text n.natAbs ++ ' ' :: rest)) := by
      simp only [int_text, hneg, if_false]
      rw [hcr, List.append_assoc, List.cons_append]
      exact sentry_token ws c _ hws (isspace_of_isdigit c hc)
    have hsg : scan_sign (nat_text n.natAbs ++ ' ' :: rest) =
        (false, nat_text n.natAbs ++ ' ' :: rest) := by
      rw [hcr, List.cons_append]
      exact scan_sign_digit c _ hc
    have habs : ((n.natAbs : Nat) : Int) = n := by omega
    have hr : ((n.natAbs : Nat) : Int) ≤ INT_MAX := by
      rw [habs]; exact hhi
    simp only [extract_int, hst, if_true, open_on_data, hsg, hsp, hne,
      digits_value_nat_text, hhi, Bool.false_eq_true, if_false, List.isEmpty_cons, habs]
    rfl

theorem extract_string_token (value : Val) (ws rest str : List Char)
    (hws : ∀ x ∈ ws, x = ' ') (hne : str ≠ []) (hstr : ∀ c ∈ str, isspace c = false) :
    extract_string value (istream.open_on (ws ++ str ++ ' ' :: rest)) =
      (.string str, istream.open_on (' ' :: rest)) := by
  cases hcr : str with
  | nil => exact absurd hcr hne
  | cons c r =>
    have hsp : (str ++ ' ' :: rest).span (fun c => !isspace c) = (str, ' ' :: rest) :=
      span_token _ _ _ _ (fun c hc => by simp [hstr c hc]) (by decide)
    have hst : sentry (istream.open_on (ws ++ str ++ ' ' :: rest)) =
        (true, istream.open_on (str ++ ' ' :: rest)) := by
      rw [hcr, List.append_assoc, List.cons_append]
      exact sentry_token ws c _ hws (hstr c (by simp [hcr]))
    rw [← hcr]
    simp only [extract_string, hst, if_true, open_on_data, hsp, List.isEmpty_cons]
    rfl

/-! ## Well-formed values -/

theorem well_formed_all_mem (t : Ty) (vs : List Val) (h : Val.well_formed_all t vs = true) :
    ∀ v ∈ vs, Val.well_formed t v = true := by
  induction vs with
  | nil => intro v hv; simp at hv
  | cons a vs ih =>
    simp only [Val.well_formed_all, Bool.and_eq_true] at h
    intro v hv
    rcases List.mem_cons.mp hv with hv | hv
    · subst hv; exact h.1
    · exact ih h.2 v hv

theorem sorted_last_lt (key : Val → Val) (x : Val) (l2 : List Val) :
    ∀ l1 : List Val, strictly_sorted key (l1 ++ x :: l2) = true →
      ∀ last, l1.getLast? = some last → Val.lt (key last) (key x) = true := by
  intro l1
  induction l1 with
  | nil => intro _ last h; simp at h
  | cons a l1 ih =>
    intro hs last hlast
    cases l1 with
    | nil =>
      simp only [List.getLast?_singleton, Option.some.injEq] at hlast
      subst hlast
      simp only [List.cons_append, List.nil_append, strictly_sorted, Bool.and_eq_true] at hs
      exact hs.1
    | cons b l1 =>
      simp only [List.cons_append, strictly_sorted, Bool.and_eq_true] at hs
      have hl : (b :: l1).getLast? = some last := by
        rw [List.getLast?_cons_cons] at hlast
        exact hlast
      exact ih hs.2 last hl

theorem insert_at_end_sorted (key : Val → Val) (l1 : List Val) (x : Val) (l2 : List Val)
    (h : strictly_sorted key (l1 ++ x :: l2) = true) : insert_at_end key l1 x = l1 ++ [x] := by
  unfold insert_at_end
  cases hl : l1.getLast? with
  | none =>
    have : l1 = [] := by simpa using hl
    subst this
    rfl
  | some last =>
    simp only [sorted_last_lt key x l2 l1 h last hl, if_true]

theorem trailing_spaces_after_token (a tok : List Char) (hne : tok ≠ [])
    (h : ∀ c ∈ tok, c ≠ ' ') : trailing_spaces (a ++ tok ++ [' ']) = [' '] := by
  rcases List.eq_nil_or_concat tok with h0 | ⟨init, c, hc⟩
  · exact absurd h0 hne
  · rw [List.concat_eq_append] at hc
    subst hc
    have hcs : c ≠ ' ' := h c (by simp)
    rw [trailing_spaces_concat_space, ← List.append_assoc, trailing_spaces_concat_ne _ _ hcs]
    rfl

theorem nat_text_ne_space (n : Nat) : ∀ c ∈ nat_text n, c ≠ ' ' := by
  intro c hc h
  subst h
  have := nat_text_isdigit n _ hc
  simp [isdigit_space] at this

theorem int_text_ne_nil (n : Int) : int_text n ≠ [] := by
  unfold int_text
  split
  · simp
  · exact nat_text_ne_nil _

theorem int_text_ne_space (n : Int) : ∀ c ∈ int_text n, c ≠ ' ' := by
  unfold int_text
  split
  · intro c hc
    rcases List.mem_cons.mp hc with h | h
    · subst h; decide
    · exact nat_text_ne_space _ c h
  · exact nat_text_ne_space _

namespace plain_text

/-! ## Unpacking what was packed -/

theorem unpack_tuple_pack_of (vs : List Val)
    (ih : ∀ v ∈ vs, ∀ t, Val.well_formed t v = true → ∀ ws rest, (∀ x ∈ ws, x = ' ') →
      deserializer.unpack_value u t (Ty.value_init t) (istream.open_on (ws ++ enc v ++ rest)) =
        (v, istream.open_on (trailing_spaces (ws ++ enc v) ++ rest))) :
    ∀ ts, Val.well_formed_list ts vs = true → ∀ ws rest, (∀ x ∈ ws, x = ' ') →
      deserializer.unpack_tuple u ts (Ty.value_init_list ts)
          (istream.open_on (ws ++ serializer.pack_tuple vs [] ++ rest)) =
        (vs, istream.open_on (trailing_spaces (ws ++ serializer.pack_tuple vs []) ++ rest)) := by
  induction vs with
  | nil =>
    intro ts h ws rest hws
    cases ts with
    | nil =>
      simp [deserializer.unpack_tuple, serializer.pack_tuple, trailing_spaces_of_spaces ws hws]
    | cons t ts => simp [Val.well_formed_list] at h
  | cons v vs ihl =>
    intro ts h ws rest hws
    cases ts with
    | nil => simp [Val.well_formed_list] at h
    | cons t ts =>
      simp only [Val.well_formed_list, Bool.and_eq_true] at h
      have hv := ih v (by simp) t h.1 ws (' ' :: (serializer.pack_tuple vs [] ++ rest)) hws
      have hws1 : ∀ x ∈ trailing_spaces (ws ++ enc v) ++ [' '], x = ' ' := by
        intro x hx
        rcases List.mem_append.mp hx with hx | hx
        · exact trailing_spaces_all_space _ x hx
        · simpa using hx
      have hl := ihl (fun w hw => ih w (by simp [hw])) ts h.2
        (trailing_spaces (ws ++ enc v) ++ [' ']) rest hws1
      have e1 : ws ++ serializer.pack_tuple (v :: vs) [] ++ rest =
          ws ++ enc v ++ ' ' :: (serializer.pack_tuple vs [] ++ rest) := by
        rw [pack_tuple_cons]; simp
      have e2 : trailing_spaces (ws ++ enc v) ++ ' ' :: (serializer.pack_tuple vs [] ++ rest) =
          trailing_spaces (ws ++ enc v) ++ [' '] ++ serializer.pack_tuple vs [] ++ rest := by
        simp
      have e3 : trailing_spaces (trailing_spaces (ws ++ enc v) ++ [' '] ++
          serializer.pack_tuple vs []) = trailing_spaces (ws ++ serializer.pack_tuple (v :: vs) []) := by
        rw [← trailing_spaces_concat_space, trailing_spaces_append_trailing, pack_tuple_cons]
        simp
      simp only [Ty.value_init_list, deserializer.unpack_tuple]
      rw [e1, hv, e2, hl, e3]

theorem unpack_items_pack_of (f : Val → istream → Val × istream) (item : Nat → Val)
    (insert : List Val → Val → List Val) (vs : List Val)
    (hf : ∀ v ∈ vs, ∀ left ws rest, (∀ x ∈ ws, x = ' ') →
      f (item left) (istream.open_on (ws ++ enc v ++ rest)) =
        (v, istream.open_on (trailing_spaces (ws ++ enc v) ++ rest))) :
    ∀ acc ws rest, (∀ x ∈ ws, x = ' ') →
      (∀ l1 x l2, vs = l1 ++ x :: l2 → insert (acc ++ l1) x = acc ++ l1 ++ [x]) →
      deserializer.unpack_items f item insert vs.length acc
          (istream.open_on (ws ++ serializer.pack_items vs [] ++ rest)) =
        (acc ++ vs,
          istream.open_on (trailing_spaces (ws ++ serializer.pack_items vs []) ++ rest)) := by
  induction vs with
  | nil =>
    intro acc ws rest hws _
    simp [deserializer.unpack_items, serializer.pack_items, trailing_spaces_of_spaces ws hws]
  | cons v vs ihl =>
    intro acc ws rest hws hins
    have hv := hf v (by simp) vs.length ws (serializer.pack_items vs [] ++ rest) hws
    have hi : insert acc v = acc ++ [v] := by
      have := hins [] v vs rfl
      simpa using this
    have hl := ihl (fun w hw => hf w (by simp [hw])) (acc ++ [v])
      (trailing_spaces (ws ++ enc v)) rest (trailing_spaces_all_space _)
      (fun l1 x l2 e => by
        have := hins (v :: l1) x l2 (by rw [e]; rfl)
        simpa using this)
    have e1 : ws ++ serializer.pack_items (v :: vs) [] ++ rest =
        ws ++ enc v ++ (serializer.pack_items vs [] ++ rest) := by
      rw [pack_items_cons]; simp
    have e2 : trailing_spaces (ws ++ enc v) ++ (serializer.pack_items vs [] ++ rest) =
        trailing_spaces (ws ++ enc v) ++ serializer.pack_items vs [] ++ rest := by
      simp
    have e3 : trailing_spaces (trailing_spaces (ws ++ enc v) ++ serializer.pack_items vs []) =
        trailing_spaces (ws ++ serializer.pack_items (v :: vs) []) := by
      rw [trailing_spaces_append_trailing, pack_items_cons]
      simp
    simp only [List.length_cons, deserializer.unpack_items]
    rw [e1, hv]
    simp only [hi]
    rw [e2, hl, e3]
    simp

theorem unpack_user_defined_type_eq (ts : List Ty) (value : Val) (s : istream) :
    deserializer.unpack_value u (.aggregate ts) value s =
      (deserializer.make_from_tuple
          (deserializer.unpack_value u (.tuple ts) (Ty.value_init (.tuple ts)) s).1,
        (deserializer.unpack_value u (.tuple ts) (Ty.value_init (.tuple ts)) s).2) := by
  simp only [deserializer.unpack_value, Ty.value_init, Val.elems, deserializer.make_from_tuple]

theorem enc_collection (vs : List Val) :
    serializer.pack_items vs ([] ++ nat_text vs.length ++ [' ']) =
      nat_text vs.length ++ ' ' :: serializer.pack_items vs [] := by
  rw [pack_items_append]; simp

theorem unpack_collection_pack (f : Val → istream → Val × istream) (item : Nat → Val)
    (insert : List Val → Val → List Val) (vs : List Val) (hlen : vs.length ≤ SIZE_MAX)
    (hf : ∀ v ∈ vs, ∀ left ws rest, (∀ x ∈ ws, x = ' ') →
      f (item left) (istream.open_on (ws ++ enc v ++ rest)) =
        (v, istream.open_on (trailing_spaces (ws ++ enc v) ++ rest)))
    (hins : ∀ l1 x l2, vs = l1 ++ x :: l2 → insert l1 x = l1 ++ [x])
    (ws rest : List Char) (hws : ∀ x ∈ ws, x = ' ') :
    deserializer.unpack_items f item insert
        (match (extract_size (.size 0) (istream.open_on
          (ws ++ (nat_text vs.length ++ ' ' :: serializer.pack_items vs []) ++ rest))).1 with
          | .size n => n
          | _ => 0)
        []
        (extract_size (.size 0) (istream.open_on
          (ws ++ (nat_text vs.length ++ ' ' :: serializer.pack_items vs []) ++ rest))).2 =
      (vs, istream.open_on (trailing_spaces
        (ws ++ (nat_text vs.length ++ ' ' :: serializer.pack_items vs [])) ++ rest)) := by
  have e1 : ws ++ (nat_text vs.length ++ ' ' :: serializer.pack_items vs []) ++ rest =
      ws ++ nat_text vs.length ++ ' ' :: (serializer.pack_items vs [] ++ rest) := by simp
  have hc := extract_size_token (.size 0) ws (serializer.pack_items vs [] ++ rest) vs.length
    hws hlen
  have hl := unpack_items_pack_of f item insert vs hf [] [' '] rest (by simp)
    (by simpa using hins)
  have e2 : trailing_spaces ([' '] ++ serializer.pack_items vs []) =
      trailing_spaces (ws ++ (nat_text vs.length ++ ' ' :: serializer.pack_items vs [])) := by
    have h1 : trailing_spaces (ws ++ nat_text vs.length ++ [' ']) = [' '] :=
      trailing_spaces_after_token ws _ (nat_text_ne_nil _) (nat_text_ne_space _)
    rw [← h1, trailing_spaces_append_trailing]
    simp
  rw [e1, hc]
  simp only
  have e3 : ' ' :: (serializer.pack_items vs [] ++ rest) =
      [' '] ++ serializer.pack_items vs [] ++ rest := by simp
  rw [e3, hl, e2]
  simp

theorem default_init_zero (t : Ty) : Ty.default_init 0 t = Ty.value_init t := by
  cases t <;> simp [Ty.default_init, Ty.value_init, int_of_bits, size_of_bits]

theorem default_init_class (bits : Nat) :
    (∀ ts, Ty.default_init bits (.tuple ts) = Ty.value_init (.tuple ts)) ∧
      (∀ t, Ty.default_init bits (.vector t) = Ty.value_init (.vector t)) ∧
      (∀ t, Ty.default_init bits (.set t) = Ty.value_init (.set t)) ∧
      (∀ k v, Ty.default_init bits (.map k v) = Ty.value_init (.map k v)) ∧
      (∀ k v, Ty.default_init bits (.pair k v) = Ty.value_init (.pair k v)) ∧
      (∀ ts, Ty.default_init bits (.aggregate ts) = Ty.value_init (.aggregate ts)) ∧
      Ty.default_init bits .string = Ty.value_init .string :=
  ⟨fun _ => rfl, fun _ => rfl, fun _ => rfl, fun _ _ => rfl, fun _ _ => rfl, fun _ => rfl, rfl⟩

theorem value_init_of_default_init (vs : List Val)
    (ih : ∀ v ∈ vs, ∀ t, Val.well_formed t v = true → ∀ bits ws rest, (∀ x ∈ ws, x = ' ') →
      deserializer.unpack_value u t (Ty.default_init bits t)
          (istream.open_on (ws ++ enc v ++ rest)) =
        (v, istream.open_on (trailing_spaces (ws ++ enc v) ++ rest))) :
    ∀ v ∈ vs, ∀ t, Val.well_formed t v = true → ∀ ws rest, (∀ x ∈ ws, x = ' ') →
      deserializer.unpack_value u t (Ty.value_init t) (istream.open_on (ws ++ enc v ++ rest)) =
        (v, istream.open_on (trailing_spaces (ws ++ enc v) ++ rest)) := by
  intro v hv t h ws rest hws
  have := ih v hv t h 0 ws rest hws
  rwa [default_init_zero] at this

theorem unpack_value_pack_item (v : Val) :
    ∀ t, Val.well_formed t v = true → ∀ bits ws rest, (∀ x ∈ ws, x = ' ') →
      deserializer.unpack_value u t (Ty.default_init bits t)
          (istream.open_on (ws ++ enc v ++ rest)) =
        (v, istream.open_on (trailing_spaces (ws ++ enc v) ++ rest)) := by
  induction v using Val.induct with
  | int n =>
    intro t h bits ws rest hws
    cases t <;> simp only [Val.well_formed, Bool.false_eq_true] at h
    simp only [Bool.and_eq_true, decide_eq_true_eq] at h
    have e : ws ++ enc (.int n) ++ rest = ws ++ int_text n ++ ' ' :: rest := by
      simp [enc, serializer.pack_value]
    have e2 : trailing_spaces (ws ++ enc (.int n)) = [' '] := by
      have := trailing_spaces_after_token ws _ (int_text_ne_nil n) (int_text_ne_space n)
      simpa [enc, serializer.pack_value] using this
    rw [e, e2]
    simp only [deserializer.unpack_value]
    exact extract_int_token _ ws rest n hws h.1 h.2
  | size n =>
    intro t h bits ws rest hws
    cases t <;> simp only [Val.well_formed, Bool.false_eq_true] at h
    simp only [decide_eq_true_eq] at h
    have e : ws ++ enc (.size n) ++ rest = ws ++ nat_text n ++ ' ' :: rest := by
      simp [enc, serializer.pack_value]
    have e2 : trailing_spaces (ws ++ enc (.size n)) = [' '] := by
      have := trailing_spaces_after_token ws _ (nat_text_ne_nil n) (nat_text_ne_space n)
      simpa [enc, serializer.pack_value] using this
    rw [e, e2]
    simp only [deserializer.unpack_value]
    exact extract_size_token _ ws rest n hws h
  | string s =>
    intro t h bits ws rest hws
    cases t <;> simp only [Val.well_formed, Bool.false_eq_true] at h
    simp only [Bool.and_eq_true, Bool.not_eq_true', List.isEmpty_eq_false, List.all_eq_true] at h
    have hsp : ∀ c ∈ s, isspace c = false := h.2
    have hns : ∀ c ∈ s, c ≠ ' ' := by
      intro c hc hcs
      subst hcs
      have := hsp _ hc
      revert this
      decide
    have e : ws ++ enc (.string s) ++ rest = ws ++ s ++ ' ' :: rest := by
      simp [enc, serializer.pack_value]
    have e2 : trailing_spaces (ws ++ enc (.string s)) = [' '] := by
      have := trailing_spaces_after_token ws _ h.1 hns
      simpa [enc, serializer.pack_value] using this
    rw [e, e2]
    simp only [deserializer.unpack_value]
    exact extract_string_token _ ws rest s hws h.1 hsp
  | tuple vs ih =>
    intro t h bits ws rest hws
    cases t <;> simp only [Val.well_formed, Bool.false_eq_true] at h
    rename_i ts
    have := unpack_tuple_pack_of u vs (value_init_of_default_init u vs ih) ts h ws rest hws
    simp only [deserializer.unpack_value, default_init_class, Ty.value_init, Val.elems, enc,
      serializer.pack_value]
    rw [this]
  | vector vs ih =>
    intro t h bits ws rest hws
    cases t <;> simp only [Val.well_formed, Bool.false_eq_true] at h
    rename_i t
    simp only [Bool.and_eq_true, decide_eq_true_eq] at h
    have hall := well_formed_all_mem t vs h.2
    have := unpack_collection_pack (fun item s => deserializer.unpack_value u t item s)
      (fun left => Ty.default_init (u left) t) push_back vs h.1
      (fun v hv left ws rest hws => ih v hv t (hall v hv) (u left) ws rest hws)
      (fun l1 x l2 _ => rfl) ws rest hws
    simp only [deserializer.unpack_value, default_init_class, Ty.value_init, Val.elems, enc,
      serializer.pack_value, enc_collection]
    rw [this]
  | set vs ih =>
    intro t h bits ws rest hws
    cases t <;> simp only [Val.well_formed, Bool.false_eq_true] at h
    rename_i t
    simp only [Bool.and_eq_true, decide_eq_true_eq] at h
    have hall := well_formed_all_mem t vs h.1.2
    have := unpack_collection_pack (fun item s => deserializer.unpack_value u t item s)
      (fun left => Ty.default_init (u left) t) (insert_at_end id) vs h.1.1
      (fun v hv left ws rest hws => ih v hv t (hall v hv) (u left) ws rest hws)
      (fun l1 x l2 e => insert_at_end_sorted id l1 x l2 (e ▸ h.2)) ws rest hws
    simp only [deserializer.unpack_value, default_init_class, Ty.value_init, Val.elems, enc,
      serializer.pack_value, enc_collection]
    rw [this]
  | map vs ih =>
    intro t h bits ws rest hws
    cases t <;> simp only [Val.well_formed, Bool.false_eq_true] at h
    rename_i k v
    simp only [Bool.and_eq_true, decide_eq_true_eq] at h
    have hall := well_formed_all_mem (.pair k v) vs h.1.2
    have := unpack_collection_pack
      (fun _ s =>
        let a := deserializer.unpack_value u k (Ty.value_init k) s
        let b := deserializer.unpack_value u v (Ty.value_init v) a.2
        (Val.pair a.1 b.1, b.2))
      (fun _ => Ty.value_init (.pair k v)) (insert_at_end Val.key) vs h.1.1
      (fun x hx _ ws rest hws => by
        have := ih x hx (.pair k v) (hall x hx) 0 ws rest hws
        simpa only [deserializer.unpack_value] using this)
      (fun l1 x l2 e => insert_at_end_sorted Val.key l1 x l2 (e ▸ h.2)) ws rest hws
    simp only [deserializer.unpack_value, default_init_class, Val.elems, enc, serializer.pack_value,
      enc_collection]
    simp only [Ty.value_init, Val.elems] at this ⊢
    rw [this]
  | pair a b iha ihb =>
    intro t h bits ws rest hws
    cases t <;> simp only [Val.well_formed, Bool.false_eq_true] at h
    rename_i k v
    simp only [Bool.and_eq_true] at h
    have ea : enc (.pair a b) = enc a ++ ' ' :: (enc b ++ [' ']) := by
      simp only [enc, serializer.pack_value]
      rw [pack_value_append b]
      simp [enc]
    have ha := iha k h.1 0 ws (' ' :: (enc b ++ ' ' :: rest)) hws
    rw [default_init_zero] at ha
    have hws1 : ∀ x ∈ trailing_spaces (ws ++ enc a) ++ [' '], x = ' ' := by
      intro x hx
      rcases List.mem_append.mp hx with hx | hx
      · exact trailing_spaces_all_space _ x hx
      · simpa using hx
    have hb := ihb v h.2 0 (trailing_spaces (ws ++ enc a) ++ [' ']) (' ' :: rest) hws1
    rw [default_init_zero] at hb
    have e1 : ws ++ enc (.pair a b) ++ rest = ws ++ enc a ++ ' ' :: (enc b ++ ' ' :: rest) := by
      rw [ea]; simp
    have e2 : trailing_spaces (ws ++ enc a) ++ ' ' :: (enc b ++ ' ' :: rest) =
        trailing_spaces (ws ++ enc a) ++ [' '] ++ enc b ++ ' ' :: rest := by simp
    have e3 : trailing_spaces (trailing_spaces (ws ++ enc a) ++ [' '] ++ enc b) ++ ' ' :: rest =
        trailing_spaces (ws ++ enc (.pair a b)) ++ rest := by
      have : trailing_spaces (ws ++ enc (.pair a b)) =
          trailing_spaces (trailing_spaces (ws ++ enc a) ++ [' '] ++ enc b) ++ [' '] := by
        rw [← trailing_spaces_concat_space, ← trailing_spaces_concat_space (ws ++ enc a),
          List.append_assoc, trailing_spaces_append_trailing, ea]
        simp
      rw [this]; simp
    simp only [deserializer.unpack_value]
    rw [e1, ha]
    simp only
    rw [e2, hb, e3]
  | aggregate vs ih =>
    intro t h bits ws rest hws
    cases t <;> simp only [Val.well_formed, Bool.false_eq_true] at h
    rename_i ts
    simp only [Bool.and_eq_true] at h
    have := unpack_tuple_pack_of u vs (value_init_of_default_init u vs ih) ts h.2 ws rest hws
    simp only [deserializer.unpack_value, enc, serializer.pack_value]
    rw [this]

theorem unpack_value_pack (v : Val) :
    ∀ t, Val.well_formed t v = true → ∀ ws rest, (∀ x ∈ ws, x = ' ') →
      deserializer.unpack_value u t (Ty.value_init t) (istream.open_on (ws ++ enc v ++ rest)) =
        (v, istream.open_on (trailing_spaces (ws ++ enc v) ++ rest)) := by
  intro t h ws rest hws
  have := unpack_value_pack_item u v t h 0 ws rest hws
  rwa [default_init_zero] at this

/-! ## The encoder and decoder chains -/

theorem pack_eq (v : Val) : pack v = .ok ⟨some (enc v)⟩ := rfl

theorem pack_chain_eq (vs : List Val) :
    ∀ out, pack_chain ⟨some out⟩ vs = .ok ⟨some (out ++ (vs.map enc).flatten)⟩ := by
  induction vs with
  | nil => intro out; simp [pack_chain]
  | cons v vs ih =>
    intro out
    simp only [pack_chain, serializer.pack, ih, pack_value_append v out, List.map_cons,
      List.flatten_cons, List.append_assoc]

theorem pack_all_eq (v : Val) (vs : List Val) :
    pack_all v vs = .ok ⟨some (((v :: vs).map enc).flatten)⟩ := by
  simp only [pack_all, pack_eq, pack_chain_eq, List.map_cons, List.flatten_cons]

theorem encode_eq (v : Val) (vs : List Val) :
    encode v vs = .ok (((v :: vs).map enc).flatten) := by
  simp only [encode, pack_all_eq, serializer.to_buffer]

theorem round_trip_eq (T : Ty) (v : Val) :
    round_trip u T v = .ok (deserializer.unpack_value u T (Ty.value_init T)
      (istream.open_on (enc v))).1 := by
  simp [round_trip, encode_eq, from_buffer, deserializer.unpack]

theorem unpack_chain_pack (l : List (Ty × Val)) :
    (∀ p ∈ l, Val.well_formed p.1 p.2 = true) → ∀ ws rest, (∀ x ∈ ws, x = ' ') →
      unpack_chain u ⟨some (istream.open_on (ws ++ (l.map (fun p => enc p.2)).flatten ++ rest))⟩
          (l.map (fun p => (p.1, Ty.value_init p.1))) =
        .ok (l.map (fun p => p.2), ⟨some (istream.open_on
          (trailing_spaces (ws ++ (l.map (fun p => enc p.2)).flatten) ++ rest))⟩) := by
  induction l with
  | nil =>
    intro _ ws rest hws
    simp [unpack_chain, trailing_spaces_of_spaces ws hws]
  | cons p l ih =>
    intro h ws rest hws
    have hp := unpack_value_pack u p.2 p.1 (h p (by simp)) ws
      ((l.map (fun p => enc p.2)).flatten ++ rest) hws
    have hl := ih (fun q hq => h q (by simp [hq])) (trailing_spaces (ws ++ enc p.2)) rest
      (trailing_spaces_all_space _)
    have e1 : ws ++ ((p :: l).map (fun p => enc p.2)).flatten ++ rest =
        ws ++ enc p.2 ++ ((l.map (fun p => enc p.2)).flatten ++ rest) := by simp
    have e2 : trailing_spaces (ws ++ enc p.2) ++ ((l.map (fun p => enc p.2)).flatten ++ rest) =
        trailing_spaces (ws ++ enc p.2) ++ (l.map (fun p => enc p.2)).flatten ++ rest := by simp
    have e3 : trailing_spaces (trailing_spaces (ws ++ enc p.2) ++
        (l.map (fun p => enc p.2)).flatten) =
        trailing_spaces (ws ++ ((p :: l).map (fun p => enc p.2)).flatten) := by
      rw [trailing_spaces_append_trailing]; simp
    simp only [List.map_cons] at e1 e3
    simp only [List.map_cons, unpack_chain, deserializer.unpack]
    rw [e1, hp]
    simp only
    rw [e2, hl, e3]


/-! ## Round trips -/

theorem round_trip_ok (T : Ty) (v : Val) (h : Val.well_formed T v = true) :
    round_trip u T v = .ok v := by
  rw [round_trip_eq]
  have := unpack_value_pack u v T h [] [] (by simp)
  simp only [List.nil_append, List.append_nil] at this
  rw [this]

theorem round_trip_chain_ok (l : List (Ty × Val)) (p : Ty × Val)
    (h : ∀ q ∈ p :: l, Val.well_formed q.1 q.2 = true) :
    round_trip_chain u p.2 (l.map (fun q => q.2))
        ((p :: l).map (fun q => (q.1, Ty.value_init q.1))) =
      .ok ((p :: l).map (fun q => q.2)) := by
  have := unpack_chain_pack u (p :: l) h [] [] (by simp)
  simp only [List.nil_append, List.append_nil] at this
  simp only [round_trip_chain, encode_eq, decode, from_buffer]
  have e : List.map enc (p.2 :: List.map (fun q => q.2) l) =
      List.map (fun p => enc p.2) (p :: l) := by
    simp [List.map_map, Function.comp_def]
  rw [e, this]

theorem well_formed_all_int (xs : List Int) (h : ∀ x ∈ xs, INT_MIN ≤ x ∧ x ≤ INT_MAX) :
    Val.well_formed_all .int (xs.map Val.int) = true := by
  induction xs with
  | nil => rfl
  | cons x xs ih =>
    have hx := h x (by simp)
    simp only [List.map_cons, Val.well_formed_all, Val.well_formed, Bool.and_eq_true,
      decide_eq_true_eq]
    exact ⟨hx, ih (fun y hy => h y (by simp [hy]))⟩

theorem unpack_items_push_back_length (f : Val → istream → Val × istream) (item : Nat → Val) :
    ∀ n acc s, (deserializer.unpack_items f item push_back n acc s).1.length =
      acc.length + n := by
  intro n
  induction n with
  | zero => intro acc s; simp [deserializer.unpack_items]
  | succ n ih =>
    intro acc s
    simp only [deserializer.unpack_items, ih, push_back, List.length_append, List.length_cons,
      List.length_nil]
    omega

theorem enc_vector (vs : List Val) :
    enc (.vector vs) = nat_text vs.length ++ ' ' :: serializer.pack_items vs [] := by
  simp only [enc, serializer.pack_value, enc_collection]

theorem round_trip_vector_length (t : Ty) (xs : List Val) (hlen : xs.length ≤ SIZE_MAX) :
    ∃ ys, round_trip u (.vector t) (.vector xs) = .ok (.vector ys) ∧ ys.length = xs.length := by
  have hc := extract_size_token (.size 0) [] (serializer.pack_items xs []) xs.length
    (by simp) hlen
  simp only [List.nil_append] at hc
  rw [round_trip_eq, enc_vector]
  simp only [deserializer.unpack_value, Ty.value_init, Val.elems, hc]
  refine ⟨_, rfl, ?_⟩
  rw [unpack_items_push_back_length]
  simp

/-! ## Shape of the encoding -/

theorem pack_tuple_flatten (es : List Val) :
    serializer.pack_tuple es [] = (es.map (fun e => enc e ++ [' '])).flatten := by
  induction es with
  | nil => rfl
  | cons e es ih =>
    rw [pack_tuple_cons, ih]
    simp

theorem pack_tuple_ends_with_space (es : List Val) (hne : es ≠ []) :
    ∃ l, serializer.pack_tuple es [] = l ++ [' '] := by
  induction es with
  | nil => exact absurd rfl hne
  | cons e es ih =>
    rw [pack_tuple_cons]
    cases es with
    | nil => exact ⟨enc e, by simp [serializer.pack_tuple]⟩
    | cons e1 es =>
      obtain ⟨l, hl⟩ := ih (by simp)
      exact ⟨enc e ++ ' ' :: l, by rw [hl]; simp⟩

theorem pack_items_ends_with_space (vs : List Val)
    (ih : ∀ v ∈ vs, enc v = [] ∨ ∃ l, enc v = l ++ [' ']) :
    serializer.pack_items vs [] = [] ∨ ∃ l, serializer.pack_items vs [] = l ++ [' '] := by
  induction vs with
  | nil => left; rfl
  | cons v vs ihl =>
    rw [pack_items_cons]
    rcases ihl (fun w hw => ih w (by simp [hw])) with h | ⟨l, hl⟩
    · rw [h, List.append_nil]
      exact ih v (by simp)
    · right
      exact ⟨enc v ++ l, by rw [hl]; simp⟩

theorem enc_collection_ends_with_space (vs : List Val)
    (ih : ∀ v ∈ vs, enc v = [] ∨ ∃ l, enc v = l ++ [' ']) :
    ∃ l, nat_text vs.length ++ ' ' :: serializer.pack_items vs [] = l ++ [' '] := by
  rcases pack_items_ends_with_space vs ih with h | ⟨l, hl⟩
  · exact ⟨nat_text vs.length, by rw [h]⟩
  · exact ⟨nat_text vs.length ++ ' ' :: l, by rw [hl]; simp⟩

theorem enc_ends_with_space (v : Val) : enc v = [] ∨ ∃ l, enc v = l ++ [' '] := by
  induction v using Val.induct with
  | int n => right; exact ⟨int_text n, by simp [enc, serializer.pack_value]⟩
  | size n => right; exact ⟨nat_text n, by simp [enc, serializer.pack_value]⟩
  | string s => right; exact ⟨s, by simp [enc, serializer.pack_value]⟩
  | tuple vs _ =>
    simp only [enc, serializer.pack_value]
    cases vs with
    | nil => left; rfl
    | cons e es => right; exact pack_tuple_ends_with_space _ (by simp)
  | vector vs ih =>
    right
    simp only [enc, serializer.pack_value, enc_collection]
    exact enc_collection_ends_with_space vs ih
  | set vs ih =>
    right
    simp only [enc, serializer.pack_value, enc_collection]
    exact enc_collection_ends_with_space vs ih
  | map vs ih =>
    right
    simp only [enc, serializer.pack_value, enc_collection]
    exact enc_collection_ends_with_space vs ih
  | pair a b _ _ =>
    right
    simp only [enc, serializer.pack_value]
    exact ⟨_, rfl⟩
  | aggregate vs _ =>
    simp only [enc, serializer.pack_value]
    cases vs with
    | nil => left; rfl
    | cons e es => right; exact pack_tuple_ends_with_space _ (by simp)

theorem trailing_spaces_suffix (l : List Char) :
    ∃ body, l = body ++ trailing_spaces l := by
  refine ⟨(l.reverse.dropWhile (fun c => c == ' ')).reverse, ?_⟩
  have := List.takeWhile_append_dropWhile (fun c => c == ' ') l.reverse
  have h2 := congrArg List.reverse this
  simp only [List.reverse_append, List.reverse_reverse] at h2
  exact h2.symm

/-! ## Exhausted streams -/

theorem sentry_exhausted (s : istream)
    (h : s.good = false ∨ ∀ c ∈ s.data, isspace c = true) :
    (sentry s).1 = false ∧ (sentry s).2.failbit = true := by
  unfold sentry
  by_cases hg : s.good = true
  · rcases h with h | h
    · rw [h] at hg; exact absurd hg (by simp)
    · have : s.data.dropWhile isspace = [] := by
        rw [List.dropWhile_eq_nil_iff]
        exact h
      simp [hg, this]
  · simp [hg]

theorem unpack_primitive_exhausted (s : istream) (T : Ty) (value : Val)
    (h : s.good = false ∨ ∀ c ∈ s.data, isspace c = true)
    (hT : T = .int ∨ T = .size ∨ T = .string) :
    (deserializer.unpack_value u T value s).1 = value ∧
      (deserializer.unpack_value u T value s).2.failbit = true := by
  obtain ⟨h1, h2⟩ := sentry_exhausted s h
  rcases hT with hT | hT | hT <;> subst hT
  · simp [deserializer.unpack_value, extract_int, h1, h2]
  · simp [deserializer.unpack_value, extract_size, h1, h2]
  · simp [deserializer.unpack_value, extract_string, h1, h2]

theorem count_token_first (xs : List Val) (hlen : xs.length ≤ SIZE_MAX) (rest : List Char) :
    deserializer.unpack_value u .size (.size 0)
        (istream.open_on (nat_text xs.length ++ ' ' :: serializer.pack_items xs [] ++ rest)) =
      (.size xs.length, istream.open_on (' ' :: serializer.pack_items xs [] ++ rest)) := by
  have := extract_size_token (.size 0) [] (serializer.pack_items xs [] ++ rest) xs.length
    (by simp) hlen
  simpa [deserializer.unpack_value] using this

/-! ## Wire format of collections and aggregates -/

theorem pack_items_flatten (xs : List Val) :
    serializer.pack_items xs [] = (xs.map enc).flatten := by
  induction xs with
  | nil => rfl
  | cons x xs ih =>
    rw [pack_items_cons, ih]
    simp

theorem enc_iterable (xs : List Val) :
    enc (.vector xs) = enc (.size xs.length) ++ (xs.map enc).flatten ∧
      enc (.set xs) = enc (.size xs.length) ++ (xs.map enc).flatten ∧
      enc (.map xs) = enc (.size xs.length) ++ (xs.map enc).flatten := by
  have h : ∀ out, serializer.pack_items xs out = out ++ (xs.map enc).flatten := by
    intro out
    rw [pack_items_append, pack_items_flatten]
  refine ⟨?_, ?_, ?_⟩ <;> simp [enc, serializer.pack_value, h]

/-! ## Overload resolution -/

theorem pack_value_resolution_universe (t : Ty)
    (h : ∀ fields, t = .aggregate fields → fields ≠ []) :
    serializer.pack_value_resolution (Ty.traits t) = .selected (Ty.pack_overload t) := by
  cases t with
  | aggregate fields =>
    have hne := h fields rfl
    have hl : fields.length ≠ 0 := by
      intro h0
      exact hne (List.length_eq_zero.mp h0)
    simp [serializer.pack_value_resolution, serializer.pack_value_enabled, Ty.traits,
      Ty.pack_overload, resolve, user_defined_type, hl]
  | _ => rfl

theorem unpack_value_resolution_universe (t : Ty)
    (h : ∀ fields, t = .aggregate fields → fields ≠ []) :
    deserializer.unpack_value_resolution (Ty.traits t) = .selected (Ty.unpack_overload t) := by
  cases t with
  | aggregate fields =>
    have hne := h fields rfl
    have hl : fields.length ≠ 0 := by
      intro h0
      exact hne (List.length_eq_zero.mp h0)
    simp [deserializer.unpack_value_resolution, deserializer.unpack_value_enabled, Ty.traits,
      Ty.unpack_overload, resolve, user_defined_type, hl]
  | _ => rfl

theorem pack_value_primitive_first (T : type_traits) (h : T.is_serializable_v = true) :
    serializer.pack_value_enabled T = [.primitive] ∧
      serializer.pack_value_resolution T = .selected .primitive := by
  simp [serializer.pack_value_resolution, serializer.pack_value_enabled, h, resolve,
    user_defined_type]

theorem unpack_value_primitive_first (T : type_traits) (h : T.is_deserializable_v = true)
    (hp : T.is_pair_const = false) :
    deserializer.unpack_value_enabled T = [.primitive] ∧
      deserializer.unpack_value_resolution T = .selected .primitive := by
  simp [deserializer.unpack_value_resolution, deserializer.unpack_value_enabled, h, hp,
    resolve, user_defined_type]

theorem not_pair_of_iterable (T : type_traits) (h : T.is_iterable_v = true) :
    T.is_pair_const = false := by
  cases hp : T.is_pair_const with
  | false => rfl
  | true =>
    have := (T.pair_is_plain_class hp).2.2
    rw [h] at this
    exact absurd this (by decide)

theorem not_pair_of_tuple (T : type_traits) (h : T.is_tuple_v = true) :
    T.is_pair_const = false := by
  cases hp : T.is_pair_const with
  | false => rfl
  | true =>
    have := (T.pair_is_plain_class hp).2.1
    rw [h] at this
    exact absurd this (by decide)

theorem pack_value_resolution_spec (T : type_traits)
    (h : T.is_tuple_v = true → T.is_iterable_v = true → T.is_serializable_v = true) :
    (serializer.pack_value_enabled T).length ≤ 1 ∧
      (∀ o, spec_category T.is_serializable_v T.is_tuple_v T.is_iterable_v T.is_aggregate =
        some o → serializer.pack_value_resolution T = .selected o) ∧
      (spec_category T.is_serializable_v T.is_tuple_v T.is_iterable_v T.is_aggregate = none →
        serializer.pack_value_resolution T = .no_match ∨
          serializer.pack_value_resolution T = .no_decomposition) := by
  obtain ⟨s, d, tu, it, cl, n, pc, hp⟩ := T
  simp only at h
  revert h
  cases s <;> cases tu <;> cases it <;> cases cl <;>
    simp [serializer.pack_value_resolution, serializer.pack_value_enabled, resolve,
      user_defined_type, spec_category, type_traits.is_aggregate]
  intro h0
  exact Or.inr h0

theorem unpack_value_resolution_spec (T : type_traits)
    (h : T.is_tuple_v = true → T.is_iterable_v = true → T.is_deserializable_v = true)
    (hpc : T.is_pair_const = false) :
    (deserializer.unpack_value_enabled T).length ≤ 1 ∧
      (∀ o, spec_category T.is_deserializable_v T.is_tuple_v T.is_iterable_v T.is_aggregate =
        some o → deserializer.unpack_value_resolution T = .selected o) ∧
      (spec_category T.is_deserializable_v T.is_tuple_v T.is_iterable_v T.is_aggregate = none →
        deserializer.unpack_value_resolution T = .no_match ∨
          deserializer.unpack_value_resolution T = .no_decomposition) := by
  obtain ⟨s, d, tu, it, cl, n, pc, hp⟩ := T
  simp only at hpc h
  subst hpc
  revert h
  cases d <;> cases tu <;> cases it <;> cases cl <;>
    simp [deserializer.unpack_value_resolution, deserializer.unpack_value_enabled, resolve,
      user_defined_type, spec_category, type_traits.is_aggregate]
  intro h0
  exact Or.inr h0

/-! ## Maps and sets of integers -/

theorem lt_int (a b : Int) : Val.lt (.int a) (.int b) = decide (a < b) := by
  by_cases h : a < b <;> simp [Val.lt, Val.compare, h]

theorem strictly_sorted_map_int (key : Val → Val) (f : α → Val) (k : α → Int)
    (hk : ∀ a, key (f a) = .int (k a)) (m : List α)
    (hs : List.Pairwise (fun a b => k a < k b) m) :
    strictly_sorted key (m.map f) = true := by
  induction m with
  | nil => rfl
  | cons a m ih =>
    cases m with
    | nil => rfl
    | cons b m =>
      have h1 := List.pairwise_cons.mp hs
      simp only [List.map_cons, strictly_sorted, Bool.and_eq_true]
      refine ⟨?_, ?_⟩
      · rw [hk, hk, lt_int]
        simpa using h1.1 b (by simp)
      · simpa using ih h1.2

theorem well_formed_all_map (t : Ty) (f : α → Val) (m : List α)
    (h : ∀ a ∈ m, Val.well_formed t (f a) = true) :
    Val.well_formed_all t (m.map f) = true := by
  induction m with
  | nil => rfl
  | cons a m ih =>
    simp only [List.map_cons, Val.well_formed_all, Bool.and_eq_true]
    exact ⟨h a (by simp), ih (fun b hb => h b (by simp [hb]))⟩

theorem well_formed_int (n : Int) (h : INT_MIN ≤ n ∧ n ≤ INT_MAX) :
    Val.well_formed .int (.int n) = true := by
  simp [Val.well_formed, h.1, h.2]

theorem well_formed_map_int (m : List (Int × Int))
    (hs : List.Pairwise (fun a b : Int × Int => a.1 < b.1) m)
    (hr : ∀ e ∈ m, (INT_MIN ≤ e.1 ∧ e.1 ≤ INT_MAX) ∧ (INT_MIN ≤ e.2 ∧ e.2 ≤ INT_MAX))
    (hlen : m.length ≤ SIZE_MAX) :
    Val.well_formed (.map .int .int)
      (.map (m.map (fun e => .pair (.int e.1) (.int e.2)))) = true := by
  simp only [Val.well_formed, Bool.and_eq_true, decide_eq_true_eq, List.length_map]
  refine ⟨⟨hlen, ?_⟩, ?_⟩
  · apply well_formed_all_map
    intro e he
    have h1 := well_formed_int _ (hr e he).1
    have h2 := well_formed_int _ (hr e he).2
    rw [Val.well_formed, h1, h2]
    rfl
  · exact strictly_sorted_map_int Val.key (fun e : Int × Int => Val.pair (.int e.1) (.int e.2))
      (fun e => e.1) (fun _ => rfl) m hs

theorem well_formed_set_int (xs : List Int) (hs : List.Pairwise (fun a b : Int => a < b) xs)
    (hr : ∀ x ∈ xs, INT_MIN ≤ x ∧ x ≤ INT_MAX) (hlen : xs.length ≤ SIZE_MAX) :
    Val.well_formed (.set .int) (.set (xs.map Val.int)) = true := by
  simp only [Val.well_formed, Bool.and_eq_true, decide_eq_true_eq, List.length_map]
  refine ⟨⟨hlen, ?_⟩, ?_⟩
  · exact well_formed_all_map _ _ _ (fun x hx => well_formed_int x (hr x hx))
  · exact strictly_sorted_map_int id Val.int (fun x => x) (fun _ => rfl) xs hs

theorem unpack_pair_int (k v : Int) (hk : INT_MIN ≤ k ∧ k ≤ INT_MAX)
    (hv : INT_MIN ≤ v ∧ v ≤ INT_MAX) (value : Val) (rest : List Char) :
    enc (.pair (.int k) (.int v)) = int_text k ++ [' ', ' '] ++ int_text v ++ [' ', ' '] ∧
      deserializer.unpack_value u (.pair .int .int) value
          (istream.open_on (enc (.pair (.int k) (.int v)) ++ rest)) =
        (.pair (.int k) (.int v), istream.open_on ([' ', ' '] ++ rest)) := by
  have he : enc (.pair (.int k) (.int v)) =
      int_text k ++ [' ', ' '] ++ int_text v ++ [' ', ' '] := by
    simp [enc, serializer.pack_value]
  have hw : Val.well_formed (.pair .int .int) (.pair (.int k) (.int v)) = true := by
    have h1 := well_formed_int k hk
    have h2 := well_formed_int v hv
    rw [Val.well_formed, h1, h2]
    rfl
  have h := unpack_value_pack u _ _ hw [] rest (by simp)
  have ht : trailing_spaces (enc (.pair (.int k) (.int v))) = [' ', ' '] := by
    rw [he]
    have h1 := trailing_spaces_after_token (int_text k ++ [' ', ' ']) (int_text v)
      (int_text_ne_nil v) (int_text_ne_space v)
    have h2 : int_text k ++ [' ', ' '] ++ int_text v ++ [' ', ' '] =
        (int_text k ++ [' ', ' '] ++ int_text v ++ [' ']) ++ [' '] := by simp
    rw [h2, trailing_spaces_concat_space, h1]
    rfl
  refine ⟨he, ?_⟩
  simp only [List.nil_append, ht] at h
  simp only [deserializer.unpack_value] at h ⊢
  exact h

/-! ## Unpacking into a destination that holds a value -/

theorem unpack_items_pack_fold (f : Val → istream → Val × istream) (item : Nat → Val)
    (insert : List Val → Val → List Val) (vs : List Val)
    (hf : ∀ v ∈ vs, ∀ left ws rest, (∀ x ∈ ws, x = ' ') →
      f (item left) (istream.open_on (ws ++ enc v ++ rest)) =
        (v, istream.open_on (trailing_spaces (ws ++ enc v) ++ rest))) :
    ∀ acc ws rest, (∀ x ∈ ws, x = ' ') →
      deserializer.unpack_items f item insert vs.length acc
          (istream.open_on (ws ++ serializer.pack_items vs [] ++ rest)) =
        (vs.foldl insert acc,
          istream.open_on (trailing_spaces (ws ++ serializer.pack_items vs []) ++ rest)) := by
  induction vs with
  | nil =>
    intro acc ws rest hws
    simp [deserializer.unpack_items, serializer.pack_items, trailing_spaces_of_spaces ws hws]
  | cons v vs ihl =>
    intro acc ws rest hws
    have hv := hf v (by simp) vs.length ws (serializer.pack_items vs [] ++ rest) hws
    have hl := ihl (fun w hw => hf w (by simp [hw])) (insert acc v)
      (trailing_spaces (ws ++ enc v)) rest (trailing_spaces_all_space _)
    have e1 : ws ++ serializer.pack_items (v :: vs) [] ++ rest =
        ws ++ enc v ++ (serializer.pack_items vs [] ++ rest) := by
      rw [pack_items_cons]; simp
    have e2 : trailing_spaces (ws ++ enc v) ++ (serializer.pack_items vs [] ++ rest) =
        trailing_spaces (ws ++ enc v) ++ serializer.pack_items vs [] ++ rest := by
      simp
    have e3 : trailing_spaces (trailing_spaces (ws ++ enc v) ++ serializer.pack_items vs []) =
        trailing_spaces (ws ++ serializer.pack_items (v :: vs) []) := by
      rw [trailing_spaces_append_trailing, pack_items_cons]
      simp
    simp only [List.length_cons, deserializer.unpack_items, List.foldl_cons]
    rw [e1, hv]
    simp only
    rw [e2, hl, e3]

theorem unpack_collection_pack_fold (f : Val → istream → Val × istream) (item : Nat → Val)
    (insert : List Val → Val → List Val) (vs : List Val) (hlen : vs.length ≤ SIZE_MAX)
    (hf : ∀ v ∈ vs, ∀ left ws rest, (∀ x ∈ ws, x = ' ') →
      f (item left) (istream.open_on (ws ++ enc v ++ rest)) =
        (v, istream.open_on (trailing_spaces (ws ++ enc v) ++ rest)))
    (acc : List Val) (ws rest : List Char) (hws : ∀ x ∈ ws, x = ' ') :
    deserializer.unpack_items f item insert
        (match (extract_size (.size 0) (istream.open_on
          (ws ++ (nat_text vs.length ++ ' ' :: serializer.pack_items vs []) ++ rest))).1 with
          | .size n => n
          | _ => 0)
        acc
        (extract_size (.size 0) (istream.open_on
          (ws ++ (nat_text vs.length ++ ' ' :: serializer.pack_items vs []) ++ rest))).2 =
      (vs.foldl insert acc, istream.open_on (trailing_spaces
        (ws ++ (nat_text vs.length ++ ' ' :: serializer.pack_items vs [])) ++ rest)) := by
  have e1 : ws ++ (nat_text vs.length ++ ' ' :: serializer.pack_items vs []) ++ rest =
      ws ++ nat_text vs.length ++ ' ' :: (serializer.pack_items vs [] ++ rest) := by simp
  have hc := extract_size_token (.size 0) ws (serializer.pack_items vs [] ++ rest) vs.length
    hws hlen
  have hl := unpack_items_pack_fold f item insert vs hf acc [' '] rest (by simp)
  have e2 : trailing_spaces ([' '] ++ serializer.pack_items vs []) =
      trailing_spaces (ws ++ (nat_text vs.length ++ ' ' :: serializer.pack_items vs [])) := by
    have h1 : trailing_spaces (ws ++ nat_text vs.length ++ [' ']) = [' '] :=
      trailing_spaces_after_token ws _ (nat_text_ne_nil _) (nat_text_ne_space _)
    rw [← h1, trailing_spaces_append_trailing]
    simp
  rw [e1, hc]
  simp only
  have e3 : ' ' :: (serializer.pack_items vs [] ++ rest) =
      [' '] ++ serializer.pack_items vs [] ++ rest := by simp
  rw [e3, hl, e2]

theorem foldl_push_back (vs acc : List Val) : vs.foldl push_back acc = acc ++ vs := by
  induction vs generalizing acc with
  | nil => simp
  | cons v vs ih => simp [List.foldl_cons, ih, push_back]

theorem unpack_tuple_into_of (vs : List Val)
    (ih : ∀ v ∈ vs, ∀ t, Val.well_formed t v = true → ∀ d ws rest, (∀ x ∈ ws, x = ' ') →
      deserializer.unpack_value u t d (istream.open_on (ws ++ enc v ++ rest)) =
        (Val.unpacked_into t d v, istream.open_on (trailing_spaces (ws ++ enc v) ++ rest))) :
    ∀ ts, Val.well_formed_list ts vs = true → ∀ ds ws rest, (∀ x ∈ ws, x = ' ') →
      deserializer.unpack_tuple u ts ds
          (istream.open_on (ws ++ serializer.pack_tuple vs [] ++ rest)) =
        (Val.unpacked_into_list ts ds vs,
          istream.open_on (trailing_spaces (ws ++ serializer.pack_tuple vs []) ++ rest)) := by
  induction vs with
  | nil =>
    intro ts h ds ws rest hws
    cases ts with
    | nil =>
      simp [deserializer.unpack_tuple, serializer.pack_tuple, trailing_spaces_of_spaces ws hws,
        Val.unpacked_into_list]
    | cons t ts => simp [Val.well_formed_list] at h
  | cons v vs ihl =>
    intro ts h ds ws rest hws
    cases ts with
    | nil => simp [Val.well_formed_list] at h
    | cons t ts =>
      simp only [Val.well_formed_list, Bool.and_eq_true] at h
      have hws1 : ∀ x ∈ trailing_spaces (ws ++ enc v) ++ [' '], x = ' ' := by
        intro x hx
        rcases List.mem_append.mp hx with hx | hx
        · exact trailing_spaces_all_space _ x hx
        · simpa using hx
      have e1 : ws ++ serializer.pack_tuple (v :: vs) [] ++ rest =
          ws ++ enc v ++ ' ' :: (serializer.pack_tuple vs [] ++ rest) := by
        rw [pack_tuple_cons]; simp
      have e2 : trailing_spaces (ws ++ enc v) ++ ' ' :: (serializer.pack_tuple vs [] ++ rest) =
          trailing_spaces (ws ++ enc v) ++ [' '] ++ serializer.pack_tuple vs [] ++ rest := by
        simp
      have e3 : trailing_spaces (trailing_spaces (ws ++ enc v) ++ [' '] ++
          serializer.pack_tuple vs []) =
          trailing_spaces (ws ++ serializer.pack_tuple (v :: vs) []) := by
        rw [← trailing_spaces_concat_space, trailing_spaces_append_trailing, pack_tuple_cons]
        simp
      cases ds with
      | nil =>
        have hv := ih v (by simp) t h.1 (Ty.value_init t) ws
          (' ' :: (serializer.pack_tuple vs [] ++ rest)) hws
        have hl := ihl (fun w hw => ih w (by simp [hw])) ts h.2 []
          (trailing_spaces (ws ++ enc v) ++ [' ']) rest hws1
        simp only [deserializer.unpack_tuple, Val.unpacked_into_list]
        rw [e1, hv]
        simp only
        rw [e2, hl, e3]
      | cons d ds =>
        have hv := ih v (by simp) t h.1 d ws
          (' ' :: (serializer.pack_tuple vs [] ++ rest)) hws
        have hl := ihl (fun w hw => ih w (by simp [hw])) ts h.2 ds
          (trailing_spaces (ws ++ enc v) ++ [' ']) rest hws1
        simp only [deserializer.unpack_tuple, Val.unpacked_into_list]
        rw [e1, hv]
        simp only
        rw [e2, hl, e3]

theorem unpack_value_into (v : Val) :
    ∀ t, Val.well_formed t v = true → ∀ d ws rest, (∀ x ∈ ws, x = ' ') →
      deserializer.unpack_value u t d (istream.open_on (ws ++ enc v ++ rest)) =
        (Val.unpacked_into t d v,
          istream.open_on (trailing_spaces (ws ++ enc v) ++ rest)) := by
  induction v using Val.induct with
  | int n =>
    intro t h d ws rest hws
    have hp := unpack_value_pack u (.int n) t h ws rest hws
    cases t <;> simp only [Val.well_formed, Bool.false_eq_true] at h
    simp only [deserializer.unpack_value, Val.unpacked_into] at hp ⊢
    simp only [Bool.and_eq_true, decide_eq_true_eq] at h
    have e : ws ++ enc (.int n) ++ rest = ws ++ int_text n ++ ' ' :: rest := by
      simp [enc, serializer.pack_value]
    rw [← hp, e, extract_int_token _ ws rest n hws h.1 h.2,
      extract_int_token _ ws rest n hws h.1 h.2]
  | size n =>
    intro t h d ws rest hws
    have hp := unpack_value_pack u (.size n) t h ws rest hws
    cases t <;> simp only [Val.well_formed, Bool.false_eq_true] at h
    simp only [deserializer.unpack_value, Val.unpacked_into] at hp ⊢
    simp only [decide_eq_true_eq] at h
    have e : ws ++ enc (.size n) ++ rest = ws ++ nat_text n ++ ' ' :: rest := by
      simp [enc, serializer.pack_value]
    rw [← hp, e, extract_size_token _ ws rest n hws h, extract_size_token _ ws rest n hws h]
  | string s =>
    intro t h d ws rest hws
    have hp := unpack_value_pack u (.string s) t h ws rest hws
    cases t <;> simp only [Val.well_formed, Bool.false_eq_true] at h
    simp only [deserializer.unpack_value, Val.unpacked_into] at hp ⊢
    simp only [Bool.and_eq_true, Bool.not_eq_true', List.isEmpty_eq_false,
      List.all_eq_true] at h
    have e : ws ++ enc (.string s) ++ rest = ws ++ s ++ ' ' :: rest := by
      simp [enc, serializer.pack_value]
    rw [← hp, e, extract_string_token _ ws rest s hws h.1 h.2,
      extract_string_token _ ws rest s hws h.1 h.2]
  | tuple vs ih =>
    intro t h d ws rest hws
    cases t <;> simp only [Val.well_formed, Bool.false_eq_true] at h
    rename_i ts
    have := unpack_tuple_into_of u vs ih ts h d.elems ws rest hws
    simp only [deserializer.unpack_value, Val.unpacked_into, enc, serializer.pack_value]
    rw [this]
  | vector vs _ =>
    intro t h d ws rest hws
    cases t <;> simp only [Val.well_formed, Bool.false_eq_true] at h
    rename_i t
    simp only [Bool.and_eq_true, decide_eq_true_eq] at h
    have hall := well_formed_all_mem t vs h.2
    have := unpack_collection_pack_fold (fun item s => deserializer.unpack_value u t item s)
      (fun left => Ty.default_init (u left) t) push_back vs h.1
      (fun v hv left ws rest hws => unpack_value_pack_item u v t (hall v hv) (u left) ws rest hws)
      d.elems ws rest hws
    simp only [deserializer.unpack_value, Val.unpacked_into, enc, serializer.pack_value,
      enc_collection]
    rw [this, foldl_push_back]
  | set vs _ =>
    intro t h d ws rest hws
    cases t <;> simp only [Val.well_formed, Bool.false_eq_true] at h
    rename_i t
    simp only [Bool.and_eq_true, decide_eq_true_eq] at h
    have hall := well_formed_all_mem t vs h.1.2
    have := unpack_collection_pack_fold (fun item s => deserializer.unpack_value u t item s)
      (fun left => Ty.default_init (u left) t) (insert_at_end id) vs h.1.1
      (fun v hv left ws rest hws => unpack_value_pack_item u v t (hall v hv) (u left) ws rest hws)
      d.elems ws rest hws
    simp only [deserializer.unpack_value, Val.unpacked_into, enc, serializer.pack_value,
      enc_collection]
    rw [this]
  | map vs _ =>
    intro t h d ws rest hws
    cases t <;> simp only [Val.well_formed, Bool.false_eq_true] at h
    rename_i k v
    simp only [Bool.and_eq_true, decide_eq_true_eq] at h
    have hall := well_formed_all_mem (.pair k v) vs h.1.2
    have := unpack_collection_pack_fold
      (fun _ s =>
        let a := deserializer.unpack_value u k (Ty.value_init k) s
        let b := deserializer.unpack_value u v (Ty.value_init v) a.2
        (Val.pair a.1 b.1, b.2))
      (fun _ => Ty.value_init (.pair k v)) (insert_at_end Val.key) vs h.1.1
      (fun x hx _ ws rest hws => by
        have := unpack_value_pack u x (.pair k v) (hall x hx) ws rest hws
        simpa only [deserializer.unpack_value] using this)
      d.elems ws rest hws
    simp only [deserializer.unpack_value, Val.unpacked_into, enc, serializer.pack_value,
      enc_collection]
    simp only [Ty.value_init] at this ⊢
    rw [this]
  | pair a b _ _ =>
    intro t h d ws rest hws
    have hp := unpack_value_pack u (.pair a b) t h ws rest hws
    cases t <;> simp only [Val.well_formed, Bool.false_eq_true] at h
    simp only [deserializer.unpack_value, Val.unpacked_into] at hp ⊢
    exact hp
  | aggregate vs _ =>
    intro t h d ws rest hws
    have hp := unpack_value_pack u (.aggregate vs) t h ws rest hws
    cases t <;> simp only [Val.well_formed, Bool.false_eq_true] at h
    simp only [deserializer.unpack_value, Val.unpacked_into] at hp ⊢
    exact hp

end plain_text

/-! ## Streams that differ in whitespace only -/

theorem Ty.induct_types {P : Ty → Prop}
    (int : P .int) (size : P .size) (string : P .string)
    (tuple : ∀ ts, (∀ t ∈ ts, P t) → P (.tuple ts))
    (vector : ∀ t, P t → P (.vector t))
    (set : ∀ t, P t → P (.set t))
    (map : ∀ k v, P k → P v → P (.map k v))
    (pair : ∀ k v, P k → P v → P (.pair k v))
    (aggregate : ∀ ts, (∀ t ∈ ts, P t) → P (.aggregate ts)) : ∀ t, P t := by
  intro t
  refine Ty.rec (motive_1 := P) (motive_2 := fun ts => ∀ t ∈ ts, P t)
    int size string tuple vector set map pair aggregate ?_ ?_ t
  · intro t ht
    simp at ht
  · intro head tail hh ht t h
    rcases List.mem_cons.mp h with h | h
    · subst h
      exact hh
    · exact ht t h

theorem isspace_space : isspace ' ' = true := by decide

theorem squeeze_from_space (c : Char) (l : List Char) (h : isspace c = true) :
    squeeze_from true (c :: l) = squeeze_from true l := by
  simp [squeeze_from, h]

theorem squeeze_from_dropWhile (l : List Char) :
    squeeze_from true (l.dropWhile isspace) = squeeze_from true l := by
  induction l with
  | nil => rfl
  | cons c l ih =>
    by_cases h : isspace c = true
    · simp only [List.dropWhile, h, squeeze_from_space c l h, ih]
    · simp [List.dropWhile, h]

theorem dropWhile_head (l : List Char) :
    l.dropWhile isspace = [] ∨
      ∃ c cs, l.dropWhile isspace = c :: cs ∧ isspace c = false := by
  induction l with
  | nil => left; rfl
  | cons c l ih =>
    by_cases h : isspace c = true
    · simpa [List.dropWhile, h] using ih
    · right
      exact ⟨c, l, by simp [List.dropWhile, h], by simpa using h⟩

theorem squeeze_from_false_nil (l : List Char) (h : squeeze_from false l = []) : l = [] := by
  cases l with
  | nil => rfl
  | cons c l =>
    by_cases hc : isspace c = true <;> simp [squeeze_from, hc] at h

theorem squeeze_from_false_cons (c : Char) (cs l : List Char) (hc : isspace c = false)
    (h : squeeze_from false (c :: cs) = squeeze_from false l) :
    ∃ cs1, l = c :: cs1 ∧ squeeze_from false cs = squeeze_from false cs1 := by
  cases l with
  | nil =>
    exact absurd (squeeze_from_false_nil _ h) (by simp)
  | cons b l =>
    by_cases hb : isspace b = true
    · simp only [squeeze_from, hc, hb, Bool.false_eq_true, if_false, if_true,
        List.cons.injEq] at h
      rw [h.1] at hc
      exact absurd hc (by decide)
    · simp only [squeeze_from, hc, hb, Bool.false_eq_true, if_false, List.cons.injEq] at h
      exact ⟨l, by rw [h.1], h.2⟩

theorem squeeze_from_false_space (c : Char) (cs l : List Char) (hc : isspace c = true)
    (h : squeeze_from false (c :: cs) = squeeze_from false l) :
    ∃ b cs1, l = b :: cs1 ∧ isspace b = true ∧ squeeze_from true cs = squeeze_from true cs1 := by
  cases l with
  | nil =>
    exact absurd (squeeze_from_false_nil _ h) (by simp)
  | cons b l =>
    by_cases hb : isspace b = true
    · simp only [squeeze_from, hc, hb, Bool.false_eq_true, if_false, if_true,
        List.cons.injEq, true_and] at h
      exact ⟨b, l, rfl, hb, h⟩
    · simp only [squeeze_from, hc, hb, Bool.false_eq_true, if_false, if_true,
        List.cons.injEq] at h
      rw [← h.1] at hb
      exact absurd isspace_space hb

theorem squeeze_head (l l1 : List Char)
    (h : squeeze_from true l = squeeze_from true l1) :
    (l.dropWhile isspace = [] ∧ l1.dropWhile isspace = []) ∨
      ∃ c cs cs1, l.dropWhile isspace = c :: cs ∧ l1.dropWhile isspace = c :: cs1 ∧
        isspace c = false ∧ squeeze_from false (c :: cs) = squeeze_from false (c :: cs1) := by
  rw [← squeeze_from_dropWhile l, ← squeeze_from_dropWhile l1] at h
  rcases dropWhile_head l with h0 | ⟨c, cs, h0, hc⟩
  · rcases dropWhile_head l1 with h1 | ⟨b, bs, h1, hb⟩
    · exact Or.inl ⟨h0, h1⟩
    · rw [h0, h1] at h
      simp [squeeze_from, hb] at h
  · rcases dropWhile_head l1 with h1 | ⟨b, bs, h1, hb⟩
    · rw [h0, h1] at h
      simp [squeeze_from, hc] at h
    · right
      rw [h0, h1] at h
      simp only [squeeze_from, hc, hb, Bool.false_eq_true, if_false, List.cons.injEq] at h
      refine ⟨c, cs, bs, h0, by rw [h1, h.1], hc, ?_⟩
      simp [squeeze_from, hc, h.2]

theorem squeeze_takeWhile (p : Char → Bool) (hp : ∀ c, p c = true → isspace c = false) :
    ∀ l l1 : List Char, squeeze_from false l = squeeze_from false l1 →
      l.takeWhile p = l1.takeWhile p ∧
        squeeze_from false (l.dropWhile p) = squeeze_from false (l1.dropWhile p) := by
  intro l
  induction l with
  | nil =>
    intro l1 h
    have := squeeze_from_false_nil l1 h.symm
    subst this
    exact ⟨rfl, rfl⟩
  | cons c cs ih =>
    intro l1 h
    by_cases hc : isspace c = true
    · obtain ⟨b, bs, hl1, hb, _⟩ := squeeze_from_false_space c cs l1 hc h
      subst hl1
      have hpc : p c = false := by
        cases hpc : p c with
        | false => rfl
        | true => rw [hp c hpc] at hc; exact absurd hc (by decide)
      have hpb : p b = false := by
        cases hpb : p b with
        | false => rfl
        | true => rw [hp b hpb] at hb; exact absurd hb (by decide)
      simp only [List.takeWhile, List.dropWhile, hpc, hpb]
      exact ⟨trivial, h⟩
    · have hc : isspace c = false := by simpa using hc
      obtain ⟨bs, hl1, hs⟩ := squeeze_from_false_cons c cs l1 hc h
      subst hl1
      cases hpc : p c with
      | false =>
        simp only [List.takeWhile, List.dropWhile, hpc]
        exact ⟨trivial, h⟩
      | true =>
        obtain ⟨h1, h2⟩ := ih bs hs
        simp only [List.takeWhile, List.dropWhile, hpc, h1]
        exact ⟨trivial, h2⟩

theorem squeeze_from_false_true (l l1 : List Char)
    (h : squeeze_from false l = squeeze_from false l1) :
    squeeze_from true l = squeeze_from true l1 ∧ l.isEmpty = l1.isEmpty := by
  cases l with
  | nil =>
    have := squeeze_from_false_nil l1 h.symm
    subst this
    exact ⟨rfl, rfl⟩
  | cons c cs =>
    by_cases hc : isspace c = true
    · obtain ⟨b, bs, hl1, hb, hs⟩ := squeeze_from_false_space c cs l1 hc h
      subst hl1
      rw [squeeze_from_space c cs hc, squeeze_from_space b bs hb]
      exact ⟨hs, rfl⟩
    · have hc : isspace c = false := by simpa using hc
      obtain ⟨bs, hl1, hs⟩ := squeeze_from_false_cons c cs l1 hc h
      subst hl1
      simp [squeeze_from, hc, hs]

theorem same_tokens_after (r r1 : List Char) (f : Bool)
    (h : squeeze_from false r = squeeze_from false r1) :
    istream.same_tokens ⟨r, r.isEmpty, f⟩ ⟨r1, r1.isEmpty, f⟩ := by
  obtain ⟨h1, h2⟩ := squeeze_from_false_true r r1 h
  exact ⟨h2, rfl, h1⟩

theorem sentry_same_tokens (s s1 : istream) (h : s.same_tokens s1) :
    ((sentry s).1 = false ∧ (sentry s1).1 = false ∧
        (sentry s).2.same_tokens (sentry s1).2) ∨
      ∃ c cs cs1, sentry s = (true, ⟨c :: cs, false, false⟩) ∧
        sentry s1 = (true, ⟨c :: cs1, false, false⟩) ∧ isspace c = false ∧
        squeeze_from false (c :: cs) = squeeze_from false (c :: cs1) := by
  obtain ⟨he, hf, hd⟩ := h
  obtain ⟨d, e, f⟩ := s
  obtain ⟨d1, e1, f1⟩ := s1
  simp only at he hf hd
  subst he hf
  by_cases hg : (istream.mk d e f).good = true
  · have hg1 : (istream.mk d1 e f).good = true := hg
    have hef : e = false ∧ f = false := by
      simpa [istream.good] using hg
    obtain ⟨rfl, rfl⟩ := hef
    rcases squeeze_head d d1 hd with ⟨h0, h1⟩ | ⟨c, cs, cs1, h0, h1, hc, hs⟩
    · left
      simp only [sentry, hg, hg1, if_true, h0, h1]
      exact ⟨trivial, trivial, rfl, rfl, rfl⟩
    · right
      refine ⟨c, cs, cs1, ?_, ?_, hc, hs⟩
      · simp only [sentry, hg, if_true, h0]
      · simp only [sentry, hg1, if_true, h1]
  · have hgb : (istream.mk d e f).good = false := by simpa using hg
    have hgb1 : (istream.mk d1 e f).good = false := hgb
    left
    simp only [sentry, hgb, hgb1, Bool.false_eq_true, if_false]
    exact ⟨trivial, trivial, rfl, rfl, hd⟩

theorem extract_string_same_tokens (value : Val) (s s1 : istream) (h : s.same_tokens s1) :
    (extract_string value s).1 = (extract_string value s1).1 ∧
      (extract_string value s).2.same_tokens (extract_string value s1).2 := by
  rcases sentry_same_tokens s s1 h with ⟨h0, h1, hs⟩ | ⟨c, cs, cs1, h0, h1, hc, hs⟩
  · simp only [extract_string, h0, h1, Bool.false_eq_true, if_false]
    exact ⟨trivial, hs⟩
  · obtain ⟨ht, hd⟩ := squeeze_takeWhile (fun c => !isspace c) (fun c hc => by simpa using hc)
      _ _ hs
    simp only [extract_string, h0, h1, if_true, List.span_eq_take_drop, ht]
    exact ⟨trivial, same_tokens_after _ _ _ hd⟩

theorem scan_sign_same_tokens (c : Char) (cs cs1 : List Char) (hc : isspace c = false)
    (h : squeeze_from false (c :: cs) = squeeze_from false (c :: cs1)) :
    (scan_sign (c :: cs)).1 = (scan_sign (c :: cs1)).1 ∧
      squeeze_from false (scan_sign (c :: cs)).2 =
        squeeze_from false (scan_sign (c :: cs1)).2 := by
  have h2 : squeeze_from false cs = squeeze_from false cs1 := by
    simpa [squeeze_from, hc] using h
  unfold scan_sign
  by_cases hm : c = '-'
  · simp only [hm, if_true]
    exact ⟨trivial, h2⟩
  · by_cases hq : c = '+'
    · subst hq
      simp only [show ('+' : Char) ≠ '-' from by decide, if_true, if_false]
      exact ⟨trivial, h2⟩
    · simp only [hm, hq, if_false]
      exact ⟨trivial, h⟩

theorem extract_int_same_tokens (value : Val) (s s1 : istream) (h : s.same_tokens s1) :
    (extract_int value s).1 = (extract_int value s1).1 ∧
      (extract_int value s).2.same_tokens (extract_int value s1).2 := by
  rcases sentry_same_tokens s s1 h with ⟨h0, h1, hs⟩ | ⟨c, cs, cs1, h0, h1, hc, hs⟩
  · simp only [extract_int, h0, h1, Bool.false_eq_true, if_false]
    exact ⟨trivial, hs⟩
  · obtain ⟨hsg, hrest⟩ := scan_sign_same_tokens c cs cs1 hc hs
    obtain ⟨ht, hd⟩ := squeeze_takeWhile isdigit
      (fun c hc => isspace_of_isdigit c hc) _ _ hrest
    have hst := same_tokens_after _ _ true hd
    have hsf := same_tokens_after _ _ false hd
    simp only [extract_int, h0, h1, if_true, List.span_eq_take_drop, ht, hsg]
    split_ifs <;> exact ⟨rfl, by assumption⟩

theorem extract_size_same_tokens (value : Val) (s s1 : istream) (h : s.same_tokens s1) :
    (extract_size value s).1 = (extract_size value s1).1 ∧
      (extract_size value s).2.same_tokens (extract_size value s1).2 := by
  rcases sentry_same_tokens s s1 h with ⟨h0, h1, hs⟩ | ⟨c, cs, cs1, h0, h1, hc, hs⟩
  · simp only [extract_size, h0, h1, Bool.false_eq_true, if_false]
    exact ⟨trivial, hs⟩
  · obtain ⟨hsg, hrest⟩ := scan_sign_same_tokens c cs cs1 hc hs
    obtain ⟨ht, hd⟩ := squeeze_takeWhile isdigit
      (fun c hc => isspace_of_isdigit c hc) _ _ hrest
    have hst := same_tokens_after _ _ true hd
    have hsf := same_tokens_after _ _ false hd
    simp only [extract_size, h0, h1, if_true, List.span_eq_take_drop, ht, hsg]
    split_ifs <;> exact ⟨rfl, by assumption⟩

namespace plain_text

theorem unpack_items_same_tokens (f : Val → istream → Val × istream) (item : Nat → Val)
    (insert : List Val → Val → List Val)
    (hf : ∀ d s s1, istream.same_tokens s s1 →
      (f d s).1 = (f d s1).1 ∧ (f d s).2.same_tokens (f d s1).2) :
    ∀ n acc s s1, istream.same_tokens s s1 →
      (deserializer.unpack_items f item insert n acc s).1 =
          (deserializer.unpack_items f item insert n acc s1).1 ∧
        (deserializer.unpack_items f item insert n acc s).2.same_tokens
          (deserializer.unpack_items f item insert n acc s1).2 := by
  intro n
  induction n with
  | zero =>
    intro acc s s1 h
    exact ⟨rfl, h⟩
  | succ n ih =>
    intro acc s s1 h
    obtain ⟨h1, h2⟩ := hf (item n) s s1 h
    simp only [deserializer.unpack_items, h1]
    exact ih _ _ _ h2

theorem unpack_collection_same_tokens (f : Val → istream → Val × istream) (item : Nat → Val)
    (insert : List Val → Val → List Val)
    (hf : ∀ d s s1, istream.same_tokens s s1 →
      (f d s).1 = (f d s1).1 ∧ (f d s).2.same_tokens (f d s1).2)
    (acc : List Val) (s s1 : istream) (h : istream.same_tokens s s1) :
    (deserializer.unpack_items f item insert
        (match (extract_size (.size 0) s).1 with | .size n => n | _ => 0) acc
        (extract_size (.size 0) s).2).1 =
      (deserializer.unpack_items f item insert
        (match (extract_size (.size 0) s1).1 with | .size n => n | _ => 0) acc
        (extract_size (.size 0) s1).2).1 ∧
    (deserializer.unpack_items f item insert
        (match (extract_size (.size 0) s).1 with | .size n => n | _ => 0) acc
        (extract_size (.size 0) s).2).2.same_tokens
      (deserializer.unpack_items f item insert
        (match (extract_size (.size 0) s1).1 with | .size n => n | _ => 0) acc
        (extract_size (.size 0) s1).2).2 := by
  obtain ⟨h1, h2⟩ := extract_size_same_tokens (.size 0) s s1 h
  rw [h1]
  exact unpack_items_same_tokens f item insert hf _ acc _ _ h2

theorem unpack_tuple_same_tokens (ts : List Ty)
    (ih : ∀ t ∈ ts, ∀ d s s1, istream.same_tokens s s1 →
      (deserializer.unpack_value u t d s).1 = (deserializer.unpack_value u t d s1).1 ∧
        (deserializer.unpack_value u t d s).2.same_tokens (deserializer.unpack_value u t d s1).2) :
    ∀ ds s s1, istream.same_tokens s s1 →
      (deserializer.unpack_tuple u ts ds s).1 = (deserializer.unpack_tuple u ts ds s1).1 ∧
        (deserializer.unpack_tuple u ts ds s).2.same_tokens
          (deserializer.unpack_tuple u ts ds s1).2 := by
  induction ts with
  | nil =>
    intro ds s s1 h
    simp only [deserializer.unpack_tuple]
    exact ⟨trivial, h⟩
  | cons t ts ihl =>
    intro ds s s1 h
    have iht := ih t (by simp)
    have ihr := ihl (fun u hu => ih u (by simp [hu]))
    cases ds with
    | nil =>
      obtain ⟨h1, h2⟩ := iht (Ty.value_init t) s s1 h
      obtain ⟨h3, h4⟩ := ihr [] _ _ h2
      simp only [deserializer.unpack_tuple, h1, h3]
      exact ⟨trivial, h4⟩
    | cons d ds =>
      obtain ⟨h1, h2⟩ := iht d s s1 h
      obtain ⟨h3, h4⟩ := ihr ds _ _ h2
      simp only [deserializer.unpack_tuple, h1, h3]
      exact ⟨trivial, h4⟩

theorem unpack_value_same_tokens (t : Ty) :
    ∀ d s s1, istream.same_tokens s s1 →
      (deserializer.unpack_value u t d s).1 = (deserializer.unpack_value u t d s1).1 ∧
        (deserializer.unpack_value u t d s).2.same_tokens
          (deserializer.unpack_value u t d s1).2 := by
  induction t using Ty.induct_types with
  | int =>
    intro d s s1 h
    simp only [deserializer.unpack_value]
    exact extract_int_same_tokens d s s1 h
  | size =>
    intro d s s1 h
    simp only [deserializer.unpack_value]
    exact extract_size_same_tokens d s s1 h
  | string =>
    intro d s s1 h
    simp only [deserializer.unpack_value]
    exact extract_string_same_tokens d s s1 h
  | tuple ts ih =>
    intro d s s1 h
    obtain ⟨h1, h2⟩ := unpack_tuple_same_tokens u ts ih d.elems s s1 h
    simp only [deserializer.unpack_value, h1]
    exact ⟨trivial, h2⟩
  | vector t ih =>
    intro d s s1 h
    obtain ⟨h1, h2⟩ := unpack_collection_same_tokens
      (fun item s => deserializer.unpack_value u t item s)
      (fun left => Ty.default_init (u left) t) push_back ih d.elems s s1 h
    simp only [deserializer.unpack_value, h1]
    exact ⟨trivial, h2⟩
  | set t ih =>
    intro d s s1 h
    obtain ⟨h1, h2⟩ := unpack_collection_same_tokens
      (fun item s => deserializer.unpack_value u t item s)
      (fun left => Ty.default_init (u left) t) (insert_at_end id) ih d.elems s s1 h
    simp only [deserializer.unpack_value, h1]
    exact ⟨trivial, h2⟩
  | map k v ihk ihv =>
    intro d s s1 h
    have hf : ∀ (d : Val) (s s1 : istream), istream.same_tokens s s1 →
        ((fun (_ : Val) s =>
            let a := deserializer.unpack_value u k (Ty.value_init k) s
            let b := deserializer.unpack_value u v (Ty.value_init v) a.2
            (Val.pair a.1 b.1, b.2)) d s).1 =
          ((fun (_ : Val) s =>
            let a := deserializer.unpack_value u k (Ty.value_init k) s
            let b := deserializer.unpack_value u v (Ty.value_init v) a.2
            (Val.pair a.1 b.1, b.2)) d s1).1 ∧
        istream.same_tokens
          ((fun (_ : Val) s =>
            let a := deserializer.unpack_value u k (Ty.value_init k) s
            let b := deserializer.unpack_value u v (Ty.value_init v) a.2
            (Val.pair a.1 b.1, b.2)) d s).2
          ((fun (_ : Val) s =>
            let a := deserializer.unpack_value u k (Ty.value_init k) s
            let b := deserializer.unpack_value u v (Ty.value_init v) a.2
            (Val.pair a.1 b.1, b.2)) d s1).2 := by
      intro d s s1 h
      obtain ⟨h1, h2⟩ := ihk (Ty.value_init k) s s1 h
      obtain ⟨h3, h4⟩ := ihv (Ty.value_init v) _ _ h2
      simp only [h1, h3]
      exact ⟨trivial, h4⟩
    obtain ⟨h1, h2⟩ := unpack_collection_same_tokens _ (fun _ => Ty.value_init (.pair k v))
      (insert_at_end Val.key) hf d.elems s s1 h
    simp only [deserializer.unpack_value, h1]
    exact ⟨trivial, h2⟩
  | pair k v ihk ihv =>
    intro d s s1 h
    obtain ⟨h1, h2⟩ := ihk (Ty.value_init k) s s1 h
    obtain ⟨h3, h4⟩ := ihv (Ty.value_init v) _ _ h2
    simp only [deserializer.unpack_value, h1, h3]
    exact ⟨trivial, h4⟩
  | aggregate ts ih =>
    intro d s s1 h
    obtain ⟨h1, h2⟩ := unpack_tuple_same_tokens u ts ih (Ty.value_init_list ts) s s1 h
    simp only [deserializer.unpack_value, h1]
    exact ⟨trivial, h2⟩

theorem unpack_chain_same_tokens (dests : List (Ty × Val)) :
    ∀ s s1, istream.same_tokens s s1 → ∃ r r1,
      unpack_chain u ⟨some s⟩ dests = .ok r ∧ unpack_chain u ⟨some s1⟩ dests = .ok r1 ∧
        r.1 = r1.1 := by
  induction dests with
  | nil =>
    intro s s1 _
    exact ⟨_, _, rfl, rfl, rfl⟩
  | cons x dests ih =>
    intro s s1 h
    obtain ⟨h1, h2⟩ := unpack_value_same_tokens u x.1 x.2 s s1 h
    obtain ⟨r, r1, e, e1, hr⟩ := ih _ _ h2
    refine ⟨((deserializer.unpack_value u x.1 x.2 s).1 :: r.1, r.2),
      ((deserializer.unpack_value u x.1 x.2 s1).1 :: r1.1, r1.2), ?_, ?_, ?_⟩
    · simp only [unpack_chain, deserializer.unpack, e]
    · simp only [unpack_chain, deserializer.unpack, e1]
    · simp only [h1, hr]

theorem decode_same_tokens (b b1 : buffer) (dests : List (Ty × Val))
    (h : squeeze_from true b = squeeze_from true b1) : decode u b dests = decode u b1 dests := by
  obtain ⟨r, r1, e, e1, hr⟩ := unpack_chain_same_tokens u dests (istream.open_on b)
    (istream.open_on b1) ⟨rfl, rfl, h⟩
  simp only [decode, from_buffer, e, e1, hr]

theorem unpack_chain_eq_unpack_tuple (dests : List (Ty × Val)) :
    ∀ s, unpack_chain u ⟨some s⟩ dests =
      .ok ((deserializer.unpack_tuple u (dests.map Prod.fst) (dests.map Prod.snd) s).1,
        ⟨some (deserializer.unpack_tuple u (dests.map Prod.fst) (dests.map Prod.snd) s).2⟩) := by
  induction dests with
  | nil =>
    intro s
    rfl
  | cons x dests ih =>
    intro s
    simp only [unpack_chain, deserializer.unpack, ih, List.map_cons,
      deserializer.unpack_tuple]

theorem squeeze_from_double_space (f : Bool) (x r : List Char) :
    squeeze_from f (x ++ ' ' :: ' ' :: r) = squeeze_from f (x ++ ' ' :: r) := by
  induction x generalizing f with
  | nil => cases f <;> simp [squeeze_from, isspace_space]
  | cons c x ih =>
    by_cases hc : isspace c = true
    · cases f <;> simp [squeeze_from, hc, ih]
    · simp [squeeze_from, hc, ih]

theorem squeeze_from_extra_space (X r : List Char) (h : X = [] ∨ ∃ l, X = l ++ [' ']) :
    squeeze_from true (X ++ ' ' :: r) = squeeze_from true (X ++ r) := by
  rcases h with rfl | ⟨l, rfl⟩
  · simp [squeeze_from, isspace_space]
  · have := squeeze_from_double_space true l r
    simpa using this

theorem ends_with_space_append (X Y : List Char) (hX : X = [] ∨ ∃ l, X = l ++ [' '])
    (hY : Y = [] ∨ ∃ l, Y = l ++ [' ']) : X ++ Y = [] ∨ ∃ l, X ++ Y = l ++ [' '] := by
  rcases hY with rfl | ⟨l, rfl⟩
  · simpa using hX
  · right
    exact ⟨X ++ l, by simp⟩

theorem squeeze_pack_tuple (vs : List Val) :
    ∀ X, (X = [] ∨ ∃ l, X = l ++ [' ']) →
      squeeze_from true (X ++ serializer.pack_tuple vs []) =
        squeeze_from true (X ++ (vs.map enc).flatten) := by
  induction vs with
  | nil =>
    intro X _
    rfl
  | cons v vs ih =>
    intro X hX
    have hX1 := ends_with_space_append X (enc v) hX (enc_ends_with_space v)
    have e1 : X ++ serializer.pack_tuple (v :: vs) [] =
        (X ++ enc v) ++ ' ' :: serializer.pack_tuple vs [] := by
      rw [pack_tuple_cons]; simp
    have e2 : X ++ ((v :: vs).map enc).flatten = (X ++ enc v) ++ (vs.map enc).flatten := by
      simp
    rw [e1, e2, squeeze_from_extra_space _ _ hX1]
    exact ih _ hX1

theorem round_trip_chain_tuple (v : Val) (vs : List Val) (dests : List (Ty × Val)) :
    round_trip_chain u (.tuple (v :: vs)) [] dests = round_trip_chain u v vs dests := by
  simp only [round_trip_chain, encode_eq]
  apply decode_same_tokens
  have := squeeze_pack_tuple (v :: vs) [] (Or.inl rfl)
  simpa [enc, serializer.pack_value] using this

theorem unpack_items_push_back_append (f : Val → istream → Val × istream)
    (item : Nat → Val) :
    ∀ n acc s, deserializer.unpack_items f item push_back n acc s =
      (acc ++ (deserializer.unpack_items f item push_back n [] s).1,
        (deserializer.unpack_items f item push_back n [] s).2) := by
  intro n
  induction n with
  | zero =>
    intro acc s
    simp [deserializer.unpack_items]
  | succ n ih =>
    intro acc s
    simp only [deserializer.unpack_items]
    rw [ih (push_back acc _), ih (push_back [] _)]
    simp [push_back]

theorem unpack_vector_append (t : Ty) (p : List Val) (s : istream) :
    ∃ ys s1, deserializer.unpack_value u (.vector t) (.vector []) s = (.vector ys, s1) ∧
      deserializer.unpack_value u (.vector t) (.vector p) s = (.vector (p ++ ys), s1) := by
  refine ⟨_, _, rfl, ?_⟩
  simp only [deserializer.unpack_value, Val.elems]
  rw [unpack_items_push_back_append]

theorem unpacked_into_primitive (T : Ty) (d v : Val)
    (h : T = .int ∨ T = .size ∨ T = .string) : Val.unpacked_into T d v = v := by
  rcases h with h | h | h <;> subst h <;> cases v <;> simp [Val.unpacked_into]

/-! ## Loop items past the end of the input -/

theorem int_of_bits_range (bits : Nat) :
    INT_MIN ≤ int_of_bits bits ∧ int_of_bits bits ≤ INT_MAX := by
  unfold int_of_bits INT_MIN INT_MAX
  split <;> omega

theorem size_of_bits_range (bits : Nat) : size_of_bits bits ≤ SIZE_MAX := by
  unfold size_of_bits SIZE_MAX
  omega

theorem unpack_vector_past_end :
    deserializer.unpack_value u (.vector .int) (.vector [])
        (istream.open_on ['3', ' ', '1']) =
      (.vector [.int 1, .int (int_of_bits (u 1)), .int (int_of_bits (u 0))],
        ⟨[], true, true⟩) ∧
    deserializer.unpack_value u (.vector .string) (.vector [])
        (istream.open_on ['2', ' ', 'a']) =
      (.vector [.string ['a'], .string []], ⟨[], true, true⟩) ∧
    deserializer.unpack_value u (.vector (.aggregate [.int])) (.vector [])
        (istream.open_on ['1', ' ']) =
      (.vector [.aggregate [.int 0]], ⟨[], true, true⟩) :=
  ⟨rfl, rfl, rfl⟩

/-! ## Claims -/

/-- C1, as stated, fails: the string `a b` is a value of a supported primitive type,
and its round trip yields `a`, not `a b`. -/
theorem round_trip_string_with_space :
    round_trip zero_bits .string (.string ['a', ' ', 'b']) = .ok (.string ['a']) ∧
      round_trip zero_bits .string (.string ['a', ' ', 'b']) ≠ .ok (.string ['a', ' ', 'b']) := by
  have h : round_trip zero_bits .string (.string ['a', ' ', 'b']) = .ok (.string ['a']) := by rfl
  refine ⟨h, ?_⟩
  rw [h]
  intro e
  cases e

/-- C1, amended: for every type `T` of the universe (primitives, tuples, vectors, sets,
maps, aggregates with at least one field, nested at will) and every well-formed value
`v` of `T` (integers within the range of their type, every string non-empty and free
of whitespace, sets and maps in key order), packing `v`, taking the buffer, and unpacking
it into a value-initialised destination of type `T` yields `v`. -/
theorem round_trip_well_formed (u : indeterminate) (T : Ty) (v : Val)
    (h : Val.well_formed T v = true) :
    round_trip u T v = .ok v :=
  round_trip_ok u T v h

theorem round_trip_well_formed_witness :
    Val.well_formed (.vector (.aggregate [.tuple [.int, .string], .map .string (.set .int)]))
        (.vector [.aggregate [.tuple [.int (-7), .string ['o', 'k']],
          .map [.pair (.string ['a']) (.set [.int 1, .int 2]),
            .pair (.string ['b']) (.set [])]]]) = true ∧
      round_trip zero_bits (.vector (.aggregate [.tuple [.int, .string], .map .string (.set .int)]))
        (.vector [.aggregate [.tuple [.int (-7), .string ['o', 'k']],
          .map [.pair (.string ['a']) (.set [.int 1, .int 2]),
            .pair (.string ['b']) (.set [])]]]) =
        .ok (.vector [.aggregate [.tuple [.int (-7), .string ['o', 'k']],
          .map [.pair (.string ['a']) (.set [.int 1, .int 2]),
            .pair (.string ['b']) (.set [])]]]) :=
  ⟨by decide, round_trip_well_formed zero_bits _ _ (by decide)⟩

/-- C2: for every `int` n, every non-empty string s without whitespace and every vector
xs of `int`, packing the tuple (n, s, xs) and unpacking the buffer into a
value-initialised tuple of the same shape yields exactly (n, s, xs). -/
theorem round_trip_int_string_vector (u : indeterminate) (n : Int) (s : List Char) (xs : List Int)
    (hn : INT_MIN ≤ n ∧ n ≤ INT_MAX) (hs : s ≠ []) (hsp : ∀ c ∈ s, isspace c = false)
    (hxs : ∀ x ∈ xs, INT_MIN ≤ x ∧ x ≤ INT_MAX) (hlen : xs.length ≤ SIZE_MAX) :
    round_trip u (.tuple [.int, .string, .vector .int])
        (.tuple [.int n, .string s, .vector (xs.map Val.int)]) =
      .ok (.tuple [.int n, .string s, .vector (xs.map Val.int)]) := by
  apply round_trip_ok
  simp only [Val.well_formed, Val.well_formed_list, Bool.and_eq_true, decide_eq_true_eq,
    Bool.not_eq_true', List.isEmpty_eq_false, List.all_eq_true, List.length_map,
    well_formed_all_int xs hxs, and_true]
  exact ⟨hn, ⟨hs, fun c hc => by simp [hsp c hc]⟩, hlen⟩

theorem round_trip_int_string_vector_witness :
    (INT_MIN ≤ 42 ∧ (42 : Int) ≤ INT_MAX) ∧ (['o', 'k'] : List Char) ≠ [] ∧
      (∀ c ∈ ['o', 'k'], isspace c = false) ∧
      (∀ x ∈ ([1, 2, 3] : List Int), INT_MIN ≤ x ∧ x ≤ INT_MAX) ∧
      ([1, 2, 3] : List Int).length ≤ SIZE_MAX ∧
      round_trip zero_bits (.tuple [.int, .string, .vector .int])
          (.tuple [.int 42, .string ['o', 'k'], .vector [.int 1, .int 2, .int 3]]) =
        .ok (.tuple [.int 42, .string ['o', 'k'], .vector [.int 1, .int 2, .int 3]]) :=
  ⟨by decide, by decide, by decide, by decide, by decide,
    round_trip_int_string_vector zero_bits 42 ['o', 'k'] [1, 2, 3] (by decide) (by decide)
      (by decide) (by decide) (by decide)⟩

/-- C3, as stated, fails.  With a value that holds whitespace the tokens shift: the
strings `x y`, `z`, `w` come back as `x`, `y`, `z`.  With a destination that is not
empty the decoded elements follow the old ones: the vector (1) unpacked into a vector
holding 7 gives (7, 1). -/
theorem order_preservation_fails :
    (round_trip_chain zero_bits (.string ['x', ' ', 'y']) [.string ['z'], .string ['w']]
        [(.string, .string []), (.string, .string []), (.string, .string [])] =
        .ok [.string ['x'], .string ['y'], .string ['z']] ∧
      round_trip_chain zero_bits (.string ['x', ' ', 'y']) [.string ['z'], .string ['w']]
        [(.string, .string []), (.string, .string []), (.string, .string [])] ≠
        .ok [.string ['x', ' ', 'y'], .string ['z'], .string ['w']]) ∧
    (round_trip_chain zero_bits (.vector [.int 1]) [.int 2, .int 3]
        [(.vector .int, .vector [.int 7]), (.int, .int 0), (.int, .int 0)] =
        .ok [.vector [.int 7, .int 1], .int 2, .int 3] ∧
      round_trip_chain zero_bits (.vector [.int 1]) [.int 2, .int 3]
        [(.vector .int, .vector [.int 7]), (.int, .int 0), (.int, .int 0)] ≠
        .ok [.vector [.int 1], .int 2, .int 3]) := by
  have h1 : round_trip_chain zero_bits (.string ['x', ' ', 'y']) [.string ['z'], .string ['w']]
      [(.string, .string []), (.string, .string []), (.string, .string [])] =
      .ok [.string ['x'], .string ['y'], .string ['z']] := by rfl
  have h2 : round_trip_chain zero_bits (.vector [.int 1]) [.int 2, .int 3]
      [(.vector .int, .vector [.int 7]), (.int, .int 0), (.int, .int 0)] =
      .ok [.vector [.int 7, .int 1], .int 2, .int 3] := by rfl
  refine ⟨⟨h1, ?_⟩, h2, ?_⟩
  · rw [h1]; intro e; cases e
  · rw [h2]; intro e; cases e

/-- C3, amended: for all well-formed values a, b, c of types A, B, C (integers in range,
strings non-empty and free of whitespace, sets and maps in key order), encoding them in
the order (a, b, c), as three chained pack calls or as one tuple, and decoding from the
buffer into value-initialised destinations x, y, z of types A, B, C in the same order
yields x = a, y = b and z = c. -/
theorem order_preserved (u : indeterminate) (A B C : Ty) (a b c : Val)
    (ha : Val.well_formed A a = true) (hb : Val.well_formed B b = true)
    (hc : Val.well_formed C c = true) :
    round_trip_chain u a [b, c]
        [(A, Ty.value_init A), (B, Ty.value_init B), (C, Ty.value_init C)] = .ok [a, b, c] ∧
      round_trip u (.tuple [A, B, C]) (.tuple [a, b, c]) = .ok (.tuple [a, b, c]) := by
  constructor
  · have := round_trip_chain_ok u [(B, b), (C, c)] (A, a) (by
      intro q hq
      simp only [List.mem_cons, List.mem_singleton, List.not_mem_nil, or_false] at hq
      rcases hq with h | h | h <;> subst h <;> assumption)
    simpa using this
  · apply round_trip_ok
    simp only [Val.well_formed, Val.well_formed_list, ha, hb, hc, Bool.and_self]

theorem order_preserved_witness :
    (Val.well_formed (.vector .int) (.vector [.int 3, .int 1]) = true ∧
      Val.well_formed .string (.string ['a', 'b']) = true ∧
      Val.well_formed .int (.int (-5)) = true) ∧
    (round_trip_chain zero_bits (.vector [.int 3, .int 1]) [.string ['a', 'b'], .int (-5)]
        [(.vector .int, Ty.value_init (.vector .int)), (.string, Ty.value_init .string),
          (.int, Ty.value_init .int)] =
        .ok [.vector [.int 3, .int 1], .string ['a', 'b'], .int (-5)] ∧
      round_trip zero_bits (.tuple [.vector .int, .string, .int])
          (.tuple [.vector [.int 3, .int 1], .string ['a', 'b'], .int (-5)]) =
        .ok (.tuple [.vector [.int 3, .int 1], .string ['a', 'b'], .int (-5)])) :=
  ⟨⟨by decide, by decide, by decide⟩,
    order_preserved zero_bits (.vector .int) .string .int (.vector [.int 3, .int 1])
      (.string ['a', 'b']) (.int (-5)) (by decide) (by decide) (by decide)⟩

/-- C4, as stated, fails: the set of the two strings `a a` and `b` is packed with the
count 2, and unpacking reads the tokens `a` and `a`, which make a set of one element. -/
theorem count_fidelity_fails_for_set :
    (Val.set [.string ['a', ' ', 'a'], .string ['b']]).elems.length = 2 ∧
      round_trip zero_bits (.set .string) (.set [.string ['a', ' ', 'a'], .string ['b']]) =
        .ok (.set [.string ['a']]) ∧
      (Val.set [.string ['a']]).elems.length ≠ 2 := by
  refine ⟨rfl, ?_, by decide⟩
  rfl

/-- C4, amended: for a collection of N elements (N within `std::size_t`, N = 0 and
N = 1 included) the packed buffer starts with the count token N, which unpack reads
first.  Unpacked into an empty collection of the same type, a vector yields exactly N
elements whatever its elements are; a set or a map yields itself, hence N elements,
when it is well-formed (strings non-empty and free of whitespace, integers in range,
keys in order).  An empty vector of integers encodes as `0 ` and decodes to an empty
vector. -/
theorem count_fidelity (u : indeterminate) (t : Ty) (xs : List Val) (hlen : xs.length ≤ SIZE_MAX) :
    (∀ c ∈ [Val.vector xs, Val.set xs, Val.map xs],
      (deserializer.unpack_value u .size (.size 0) (istream.open_on (enc c))).1 =
        .size xs.length) ∧
    (∃ ys, round_trip u (.vector t) (.vector xs) = .ok (.vector ys) ∧ ys.length = xs.length) ∧
    (Val.well_formed (.set t) (.set xs) = true →
      round_trip u (.set t) (.set xs) = .ok (.set xs)) ∧
    (∀ k v, Val.well_formed (.map k v) (.map xs) = true →
      round_trip u (.map k v) (.map xs) = .ok (.map xs)) ∧
    (encode (.vector []) [] = .ok ['0', ' '] ∧
      round_trip u (.vector .int) (.vector []) = .ok (.vector [])) := by
  refine ⟨?_, round_trip_vector_length u t xs hlen, fun h => round_trip_ok u _ _ h,
    fun k v h => round_trip_ok u _ _ h, rfl, rfl⟩
  intro c hc
  have h := count_token_first u xs hlen []
  simp only [List.append_nil] at h
  simp only [List.mem_cons, List.mem_singleton, List.not_mem_nil, or_false] at hc
  rcases hc with hc | hc | hc <;> subst hc <;>
    simp only [enc, serializer.pack_value, enc_collection, h]

theorem count_fidelity_witness :
    ([.int 5, .int 9] : List Val).length ≤ SIZE_MAX ∧
      (∃ ys, round_trip zero_bits (.vector .int) (.vector [.int 5, .int 9]) = .ok (.vector ys) ∧
        ys.length = 2) ∧
      round_trip zero_bits (.set .int) (.set [.int 5, .int 9]) = .ok (.set [.int 5, .int 9]) :=
  ⟨by decide, (count_fidelity zero_bits .int [.int 5, .int 9] (by decide)).2.1,
    (count_fidelity zero_bits .int [.int 5, .int 9] (by decide)).2.2.1 (by decide)⟩

/-- C5: every chain of pack calls ends in a live encoder; its first `to_buffer`
returns the accumulated buffer and leaves the encoder spent, and on the spent encoder
every `pack` and every `to_buffer` fails with the runtime error `Empty stream.`,
returning no buffer and appending nothing. -/
theorem encoder_double_use_rejected (v : Val) (vs : List Val) :
    ∃ e buf spent, pack_all v vs = .ok e ∧ e.stream_ = some buf ∧
      e.to_buffer = .ok (buf, spent) ∧
      (∀ w, spent.pack w = .error (.runtime_error "[pack] Empty stream.")) ∧
      spent.to_buffer = .error (.runtime_error "[to_buffer] Empty stream.") := by
  refine ⟨_, _, _, pack_all_eq v vs, rfl, rfl, ?_, rfl⟩
  intro w
  rfl

/-- C6, as stated, fails: unpack on a decoder with an empty buffer, and unpack on the
decoder returned once the only token has been consumed, both return normally and leave
the stale value 7 in the destination. -/
theorem unpack_exhausted_returns_stale :
    (from_buffer []).unpack zero_bits .int (.int 7) =
        .ok (.int 7, ⟨some ⟨[], true, true⟩⟩, ⟨none⟩) ∧
      (from_buffer ['1', ' ']).unpack zero_bits .int (.int 0) =
        .ok (.int 1, ⟨some ⟨[' '], false, false⟩⟩, ⟨none⟩) ∧
      (deserializer.mk (some ⟨[' '], false, false⟩)).unpack zero_bits .int (.int 7) =
        .ok (.int 7, ⟨some ⟨[], true, true⟩⟩, ⟨none⟩) := by
  refine ⟨?_, ?_, ?_⟩ <;> rfl

/-- C6, amended: unpack fails with the runtime error `Empty stream.`, the error of the
encoder's misuse after `to_buffer`, exactly on a decoder that an earlier unpack has
moved from.  On a live decoder it always returns normally; when the buffer is empty,
holds only whitespace, or the stream is no longer good, and likewise on the decoder
returned once all tokens of a packed value have been consumed, a primitive destination
keeps its prior value and `failbit` is set. -/
theorem unpack_fails_only_when_moved_from (u : indeterminate) (s : istream) (T : Ty) (value : Val)
    (h : s.good = false ∨ ∀ c ∈ s.data, isspace c = true)
    (hT : T = .int ∨ T = .size ∨ T = .string) :
    (∃ s1, (deserializer.mk (some s)).unpack u T value = .ok (value, ⟨some s1⟩, ⟨none⟩) ∧
      s1.failbit = true) ∧
    (∀ (T0 : Ty) (v0 : Val), Val.well_formed T0 v0 = true → ∃ d1 s1,
      (from_buffer (enc v0)).unpack u T0 (Ty.value_init T0) = .ok (v0, d1, ⟨none⟩) ∧
        d1.unpack u T value = .ok (value, ⟨some s1⟩, ⟨none⟩) ∧ s1.failbit = true) ∧
    (∀ (s0 : istream) (T0 : Ty) (x : Val), ∃ r,
      (deserializer.mk (some s0)).unpack u T0 x = .ok r ∧ r.2.2 = ⟨none⟩) ∧
    (∀ (T0 : Ty) (x : Val), (deserializer.mk none).unpack u T0 x =
      .error (.runtime_error "[unpack] Empty stream.")) := by
  obtain ⟨h1, h2⟩ := unpack_primitive_exhausted u s T value h hT
  refine ⟨⟨(deserializer.unpack_value u T value s).2, ?_, h2⟩, ?_, ?_, ?_⟩
  · simp only [deserializer.unpack, h1]
  · intro T0 v0 h0
    have hv := unpack_value_pack u v0 T0 h0 [] [] (by simp)
    simp only [List.nil_append, List.append_nil] at hv
    have hsp : (istream.open_on (trailing_spaces (enc v0))).good = false ∨
        ∀ c ∈ (istream.open_on (trailing_spaces (enc v0))).data, isspace c = true := by
      right
      intro c hc
      rw [trailing_spaces_all_space _ c hc]
      rfl
    obtain ⟨h3, h4⟩ := unpack_primitive_exhausted u _ T value hsp hT
    refine ⟨⟨some (istream.open_on (trailing_spaces (enc v0)))⟩, _, ?_, ?_, h4⟩
    · simp only [from_buffer, deserializer.unpack, hv]
    · simp only [deserializer.unpack, h3]
  · intro s0 T0 x
    exact ⟨_, rfl, rfl⟩
  · intro T0 x
    rfl

theorem unpack_fails_only_when_moved_from_witness :
    ((istream.open_on []).good = false ∨
        ∀ c ∈ (istream.open_on []).data, isspace c = true) ∧
      (Ty.string = .int ∨ Ty.string = .size ∨ Ty.string = .string) ∧
      (∃ s1, (deserializer.mk (some (istream.open_on []))).unpack zero_bits .string
          (.string ['o', 'l', 'd']) = .ok (.string ['o', 'l', 'd'], ⟨some s1⟩, ⟨none⟩) ∧
        s1.failbit = true) :=
  ⟨Or.inr (by simp [istream.open_on]), Or.inr (Or.inr rfl),
    (unpack_fails_only_when_moved_from zero_bits (istream.open_on []) .string
      (.string ['o', 'l', 'd']) (Or.inr (by simp [istream.open_on])) (Or.inr (Or.inr rfl))).1⟩

/-- C7, as stated, fails.  After unpacking an `int` from `1 ` followed by `2 `, the
unread remainder is ` 2 `: the separator that ends the encoding of 1 is still unread.
After unpacking a string from the encoding `a b ` of the string `a b`, followed by `2 `,
only `a` has been consumed: the unread remainder is ` b 2 `. -/
theorem unpack_leaves_separator_unread :
    (enc (.int 1) = ['1', ' '] ∧
      (deserializer.unpack_value zero_bits .int (Ty.value_init .int)
        (istream.open_on (enc (.int 1) ++ ['2', ' ']))).2.data = [' ', '2', ' '] ∧
      (deserializer.unpack_value zero_bits .int (Ty.value_init .int)
        (istream.open_on (enc (.int 1) ++ ['2', ' ']))).2.data ≠ ['2', ' ']) ∧
    (enc (.string ['a', ' ', 'b']) = ['a', ' ', 'b', ' '] ∧
      (deserializer.unpack_value zero_bits .string (Ty.value_init .string)
        (istream.open_on (enc (.string ['a', ' ', 'b']) ++ ['2', ' ']))).2.data =
          [' ', 'b', ' ', '2', ' '] ∧
      (deserializer.unpack_value zero_bits .string (Ty.value_init .string)
        (istream.open_on (enc (.string ['a', ' ', 'b']) ++ ['2', ' ']))).2.data ≠
          ['2', ' ']) := by
  have h : (deserializer.unpack_value zero_bits .int (Ty.value_init .int)
      (istream.open_on (enc (.int 1) ++ ['2', ' ']))).2.data = [' ', '2', ' '] := by rfl
  have h2 : (deserializer.unpack_value zero_bits .string (Ty.value_init .string)
      (istream.open_on (enc (.string ['a', ' ', 'b']) ++ ['2', ' ']))).2.data =
        [' ', 'b', ' ', '2', ' '] := by rfl
  refine ⟨⟨rfl, h, ?_⟩, rfl, h2, ?_⟩
  · rw [h]
    decide
  · rw [h2]
    decide

/-- C7, amended: for every well-formed value v of a type T (integers in range, strings
non-empty and free of whitespace, keys in order) and every byte sequence rest,
unpacking a value-initialised destination of type T from a decoder positioned at the
start of enc(v) ++ rest yields v and advances the cursor over enc(v) up to, and not
into, the run of space bytes that ends enc(v): the unread remainder is that run
followed by rest, and the run is not empty unless enc(v) is. -/
theorem unpack_consumes_up_to_trailing_spaces (u : indeterminate) (T : Ty) (v : Val)
    (rest : List Char) (h : Val.well_formed T v = true) :
    (from_buffer (enc v ++ rest)).unpack u T (Ty.value_init T) =
        .ok (v, ⟨some (istream.open_on (trailing_spaces (enc v) ++ rest))⟩, ⟨none⟩) ∧
      (∃ body, enc v = body ++ trailing_spaces (enc v)) ∧
      (enc v ≠ [] → trailing_spaces (enc v) ≠ []) := by
  refine ⟨?_, trailing_spaces_suffix _, ?_⟩
  · have := unpack_value_pack u v T h [] rest (by simp)
    simp only [List.nil_append] at this
    simp only [from_buffer, deserializer.unpack, this]
  · intro hne
    rcases enc_ends_with_space v with h0 | ⟨l, hl⟩
    · exact absurd h0 hne
    · rw [hl, trailing_spaces_concat_space]
      simp

theorem unpack_consumes_up_to_trailing_spaces_witness :
    Val.well_formed (.tuple [.int, .int]) (.tuple [.int 1, .int 2]) = true ∧
      (from_buffer (enc (.tuple [.int 1, .int 2]) ++ ['x'])).unpack zero_bits (.tuple [.int, .int])
          (Ty.value_init (.tuple [.int, .int])) =
        .ok (.tuple [.int 1, .int 2],
          ⟨some (istream.open_on (trailing_spaces (enc (.tuple [.int 1, .int 2])) ++ ['x']))⟩,
          ⟨none⟩) :=
  ⟨by decide, (unpack_consumes_up_to_trailing_spaces zero_bits (.tuple [.int, .int])
    (.tuple [.int 1, .int 2]) ['x'] (by decide)).1⟩

/-- C8: the buffer returned by `to_buffer` after `pack(v1).pack(v2)...pack(vn)` is
enc(v1) ++ enc(v2) ++ ... ++ enc(vn), where enc(v) is the buffer obtained by packing v
alone into a fresh encoder; each pack call keeps the bytes written before as a prefix
and appends enc(v), whatever was packed before. -/
theorem pack_is_position_independent (v : Val) (vs : List Val) :
    encode v vs = .ok (((v :: vs).map enc).flatten) ∧
      (∀ w, encode w [] = .ok (enc w)) ∧
      (∀ out w, (serializer.mk (some out)).pack w = .ok (⟨some (out ++ enc w)⟩, ⟨none⟩)) := by
  refine ⟨encode_eq v vs, ?_, ?_⟩
  · intro w
    rw [encode_eq]
    simp
  · intro out w
    simp only [serializer.pack, pack_value_append w out]

/-- C9: packing a primitive produces its default text followed by exactly one space
byte and nothing else: the decimal numeral (with a minus sign when negative) of an
integer, the bytes of a string; the integer 1 encodes as `1 ` and the string hello as
`hello `. -/
theorem primitive_wire_format :
    (∀ n, encode (.int n) [] = .ok (int_text n ++ [' '])) ∧
      (∀ n, encode (.size n) [] = .ok (nat_text n ++ [' '])) ∧
      (∀ s, encode (.string s) [] = .ok (s ++ [' '])) ∧
      (∀ n : Nat, nat_text n = (Nat.repr n).data ∧ int_text n = (Nat.repr n).data ∧
        int_text (-(n + 1 : Nat)) = '-' :: (Nat.repr (n + 1)).data) ∧
      encode (.int 1) [] = .ok ['1', ' '] ∧
      encode (.string ['h', 'e', 'l', 'l', 'o']) [] = .ok ['h', 'e', 'l', 'l', 'o', ' '] := by
  refine ⟨?_, ?_, ?_, ?_, rfl, rfl⟩
  · intro n
    rw [encode_eq]
    simp [enc, serializer.pack_value]
  · intro n
    rw [encode_eq]
    simp [enc, serializer.pack_value]
  · intro s
    rw [encode_eq]
    simp [enc, serializer.pack_value]
  · intro n
    refine ⟨nat_text_eq_repr n, ?_, ?_⟩
    · have : ¬ ((n : Int) < 0) := by omega
      simp only [int_text, this, if_false, Int.natAbs_ofNat, nat_text_eq_repr]
    · have h1 : (-((n + 1 : Nat) : Int)) < 0 := by omega
      have h2 : (-((n + 1 : Nat) : Int)).natAbs = n + 1 := by omega
      simp only [int_text, h1, if_true, h2, nat_text_eq_repr]

/-- C10: packing a tuple (e1, ..., eN) produces enc(e1) ++ ' ' ++ ... ++ enc(eN) ++ ' ',
the elements' own encodings in declared order, each followed by one more space byte;
the tuple of the integers 1 and 2 encodes as `1  2  `. -/
theorem tuple_wire_format (es : List Val) :
    encode (.tuple es) [] = .ok ((es.map (fun e => enc e ++ [' '])).flatten) ∧
      encode (.tuple [.int 1, .int 2]) [] = .ok ['1', ' ', ' ', '2', ' ', ' '] := by
  refine ⟨?_, rfl⟩
  rw [encode_eq]
  simp [enc, serializer.pack_value, pack_tuple_flatten]

/-- C11: packing a collection with elements x1..xN in iteration order produces the
primitive encoding of the count N followed by enc(x1) ++ ... ++ enc(xN), with no
separator added; the vector of the integers 1, 2, 3 encodes as exactly `3 1 2 3 `. -/
theorem collection_wire_format (xs : List Val) :
    encode (.vector xs) [] = .ok (enc (.size xs.length) ++ (xs.map enc).flatten) ∧
      encode (.set xs) [] = .ok (enc (.size xs.length) ++ (xs.map enc).flatten) ∧
      encode (.map xs) [] = .ok (enc (.size xs.length) ++ (xs.map enc).flatten) ∧
      enc (.size xs.length) = nat_text xs.length ++ [' '] ∧
      encode (.vector [.int 1, .int 2, .int 3]) [] =
        .ok ['3', ' ', '1', ' ', '2', ' ', '3', ' '] := by
  obtain ⟨h1, h2, h3⟩ := enc_iterable xs
  refine ⟨?_, ?_, ?_, ?_, rfl⟩
  · rw [encode_eq, ← h1]; simp
  · rw [encode_eq, ← h2]; simp
  · rw [encode_eq, ← h3]; simp
  · simp [enc, serializer.pack_value]

/-- C12: the bytes produced by packing an aggregate whose decomposition by `to_tuple`
is the field tuple (f1, ..., fn), in declaration order, are the bytes produced by
packing the tuple (f1, ..., fn), after whatever has been packed before. -/
theorem aggregate_wire_format (fields : List Val) :
    detail.to_tuple (.aggregate fields) = .tuple fields ∧
      encode (.aggregate fields) [] = encode (.tuple fields) [] ∧
      (∀ out, (serializer.mk (some out)).pack (.aggregate fields) =
        (serializer.mk (some out)).pack (detail.to_tuple (.aggregate fields))) ∧
      (∀ v vs, encode v (vs ++ [.aggregate fields]) = encode v (vs ++ [.tuple fields])) := by
  have h : enc (.aggregate fields) = enc (.tuple fields) := by
    simp only [enc, serializer.pack_value]
  refine ⟨rfl, ?_, ?_, ?_⟩
  · rw [encode_eq, encode_eq, List.map_cons, List.map_cons, h]
  · intro out
    simp only [serializer.pack, detail.to_tuple, serializer.pack_value]
  · intro v vs
    rw [encode_eq, encode_eq]
    simp [h]

/-- C13: for every type that is iterable and has a stream operator, the call of
`pack_value` (with `operator<<`) and the call of `unpack_value` (with `operator>>`)
resolve to the primitive overload and to no other; the collection overload is not
enabled.  A string is such a type: its encoding is its text plus one space, not a count
followed by one token for each element, and it is read back by `operator>>`. -/
theorem dispatch_priority (u : indeterminate) (T : type_traits) (hi : T.is_iterable_v = true) :
    (T.is_serializable_v = true →
      serializer.pack_value_enabled T = [.primitive] ∧
        serializer.pack_value_resolution T = .selected .primitive) ∧
    (T.is_deserializable_v = true →
      deserializer.unpack_value_enabled T = [.primitive] ∧
        deserializer.unpack_value_resolution T = .selected .primitive) ∧
    ((Ty.traits .string).is_serializable_v = true ∧
      (Ty.traits .string).is_deserializable_v = true ∧
      (Ty.traits .string).is_iterable_v = true) ∧
    (∀ str, enc (.string str) = str ++ [' ']) ∧
    (∀ value s, deserializer.unpack_value u .string value s = extract_string value s) ∧
    (enc (.string ['h', 'i']) = ['h', 'i', ' '] ∧
      enc (.string ['h', 'i']) ≠ ['2', ' ', 'h', ' ', 'i', ' ']) := by
  refine ⟨fun hs => pack_value_primitive_first T hs,
    fun hd => unpack_value_primitive_first T hd (not_pair_of_iterable T hi), ⟨rfl, rfl, rfl⟩,
    ?_, ?_, rfl, by decide⟩
  · intro str
    simp [enc, serializer.pack_value]
  · intro value s
    simp only [deserializer.unpack_value]

theorem dispatch_priority_witness :
    (Ty.traits .string).is_iterable_v = true ∧
      serializer.pack_value_resolution (Ty.traits .string) = .selected .primitive ∧
      deserializer.unpack_value_resolution (Ty.traits .string) = .selected .primitive :=
  ⟨rfl, ((dispatch_priority zero_bits (Ty.traits .string) rfl).1 rfl).2,
    ((dispatch_priority zero_bits (Ty.traits .string) rfl).2.1 rfl).2⟩

/-- C14, as stated, fails on the decode path: a `std::pair<K const, V>`, the element
type of every map, is a class with a decomposition into two fields and has no other
capability, so the priority order names the aggregate strategy, and the condition of the
class overload does hold for it; the overload selected is the one written for
`std::pair<K const, V> &`, which is none of the four. -/
theorem pair_decode_is_a_fifth_strategy :
    spec_category (Ty.traits (.pair .int .int)).is_deserializable_v
        (Ty.traits (.pair .int .int)).is_tuple_v (Ty.traits (.pair .int .int)).is_iterable_v
        (Ty.traits (.pair .int .int)).is_aggregate = some .user_defined ∧
      deserializer.unpack_value_enabled (Ty.traits (.pair .int .int)) = [.user_defined] ∧
      deserializer.unpack_value_resolution (Ty.traits (.pair .int .int)) = .selected .pair ∧
      deserializer.unpack_value_resolution (Ty.traits (.pair .int .int)) ≠
        .selected .user_defined ∧
      Ty.unpack_overload (.map .int .int) = .iterable ∧
      Ty.unpack_overload (.pair .int .int) = .pair := by
  refine ⟨rfl, rfl, rfl, by decide, rfl, rfl⟩

/-- C14, amended: leaving aside a type that is a fixed tuple and iterable without being
stream-convertible, for every combination of capabilities (stream-convertible, fixed
tuple, iterable, class with a non-empty field decomposition) at most one of the four
overloads is enabled, the strategy selected is the first that applies in the order
primitive, tuple, collection, aggregate, and the type is rejected exactly when it has
none of the four capabilities.  This holds for encoding, and for decoding every
destination that is no `std::pair<K const, V>`; each path asks for the stream
conversion of its own direction only.  A destination of type `std::pair<K const, V>`
selects the overload written for it. -/
theorem classification_exclusive (T : type_traits) :
    ((T.is_tuple_v = true → T.is_iterable_v = true → T.is_serializable_v = true) →
      (serializer.pack_value_enabled T).length ≤ 1 ∧
      (∀ o, spec_category T.is_serializable_v T.is_tuple_v T.is_iterable_v T.is_aggregate =
        some o → serializer.pack_value_resolution T = .selected o) ∧
      (spec_category T.is_serializable_v T.is_tuple_v T.is_iterable_v T.is_aggregate = none →
        serializer.pack_value_resolution T = .no_match ∨
          serializer.pack_value_resolution T = .no_decomposition)) ∧
    ((T.is_tuple_v = true → T.is_iterable_v = true → T.is_deserializable_v = true) →
      T.is_pair_const = false →
      (deserializer.unpack_value_enabled T).length ≤ 1 ∧
      (∀ o, spec_category T.is_deserializable_v T.is_tuple_v T.is_iterable_v T.is_aggregate =
        some o → deserializer.unpack_value_resolution T = .selected o) ∧
      (spec_category T.is_deserializable_v T.is_tuple_v T.is_iterable_v T.is_aggregate = none →
        deserializer.unpack_value_resolution T = .no_match ∨
          deserializer.unpack_value_resolution T = .no_decomposition)) ∧
    (T.is_pair_const = true → deserializer.unpack_value_resolution T = .selected .pair) := by
  refine ⟨fun hp => pack_value_resolution_spec T hp,
    fun hu hpc => unpack_value_resolution_spec T hu hpc, ?_⟩
  intro hpc
  simp [deserializer.unpack_value_resolution, hpc]

theorem classification_exclusive_witness :
    ((Ty.traits (.vector .int)).is_tuple_v = true →
        (Ty.traits (.vector .int)).is_iterable_v = true →
        (Ty.traits (.vector .int)).is_serializable_v = true) ∧
      ((Ty.traits (.vector .int)).is_tuple_v = true →
        (Ty.traits (.vector .int)).is_iterable_v = true →
        (Ty.traits (.vector .int)).is_deserializable_v = true) ∧
      (Ty.traits (.vector .int)).is_pair_const = false ∧
      serializer.pack_value_resolution (Ty.traits (.vector .int)) = .selected .iterable ∧
      deserializer.unpack_value_resolution (Ty.traits (.vector .int)) = .selected .iterable ∧
      serializer.pack_value_resolution (Ty.traits (.pair .int .int)) =
        .selected .user_defined :=
  ⟨by decide, by decide, rfl,
    ((classification_exclusive (Ty.traits (.vector .int))).1 (by decide)).2.1 .iterable rfl,
    ((classification_exclusive (Ty.traits (.vector .int))).2.1 (by decide) rfl).2.1
      .iterable rfl,
    ((classification_exclusive (Ty.traits (.pair .int .int))).1 (by decide)).2.1
      .user_defined rfl⟩

/-- C15: for every map from `int` to `int` and every set of `int`, given by its entries
in key order, unpacking the buffer produced by packing it into an empty map or set of
the same type yields it again; each entry is written as its key token followed by its
value token and is read back as the pair of that key and that value, whatever the
destination pair held. -/
theorem associative_round_trip (u : indeterminate) (m : List (Int × Int)) (xs : List Int)
    (hm : List.Pairwise (fun a b : Int × Int => a.1 < b.1) m)
    (hmr : ∀ e ∈ m, (INT_MIN ≤ e.1 ∧ e.1 ≤ INT_MAX) ∧ (INT_MIN ≤ e.2 ∧ e.2 ≤ INT_MAX))
    (hml : m.length ≤ SIZE_MAX)
    (hx : List.Pairwise (fun a b : Int => a < b) xs)
    (hxr : ∀ x ∈ xs, INT_MIN ≤ x ∧ x ≤ INT_MAX) (hxl : xs.length ≤ SIZE_MAX) :
    round_trip u (.map .int .int) (.map (m.map (fun e => .pair (.int e.1) (.int e.2)))) =
        .ok (.map (m.map (fun e => .pair (.int e.1) (.int e.2)))) ∧
      round_trip u (.set .int) (.set (xs.map Val.int)) = .ok (.set (xs.map Val.int)) ∧
      (∀ e ∈ m, ∀ value rest,
        enc (.pair (.int e.1) (.int e.2)) =
            int_text e.1 ++ [' ', ' '] ++ int_text e.2 ++ [' ', ' '] ∧
          deserializer.unpack_value u (.pair .int .int) value
              (istream.open_on (enc (.pair (.int e.1) (.int e.2)) ++ rest)) =
            (.pair (.int e.1) (.int e.2), istream.open_on ([' ', ' '] ++ rest))) := by
  refine ⟨round_trip_ok u _ _ (well_formed_map_int m hm hmr hml),
    round_trip_ok u _ _ (well_formed_set_int xs hx hxr hxl), ?_⟩
  intro e he value rest
  exact unpack_pair_int u e.1 e.2 (hmr e he).1 (hmr e he).2 value rest

theorem associative_round_trip_witness :
    List.Pairwise (fun a b : Int × Int => a.1 < b.1) [(1, 10), (2, -20)] ∧
      List.Pairwise (fun a b : Int => a < b) [-3, 5] ∧
      round_trip zero_bits (.map .int .int)
          (.map [.pair (.int 1) (.int 10), .pair (.int 2) (.int (-20))]) =
        .ok (.map [.pair (.int 1) (.int 10), .pair (.int 2) (.int (-20))]) ∧
      round_trip zero_bits (.set .int) (.set [.int (-3), .int 5]) =
        .ok (.set [.int (-3), .int 5]) :=
  ⟨by decide, by decide,
    (associative_round_trip zero_bits [(1, 10), (2, -20)] [-3, 5] (by decide) (by decide)
      (by decide) (by decide) (by decide) (by decide)).1,
    (associative_round_trip zero_bits [(1, 10), (2, -20)] [-3, 5] (by decide) (by decide)
      (by decide) (by decide) (by decide) (by decide)).2.1⟩

/-- C16: a pack call on a live encoder returns the next encoder, which holds all bytes
written so far followed by the encoding of the value, and leaves the original spent; an
unpack call on a live decoder returns the next decoder, which holds the stream as the
call left it, and leaves the original spent.  Every further `pack`, `to_buffer` or
`unpack` on a spent instance fails with the runtime error `Empty stream.`. -/
theorem linear_use (u : indeterminate) (out : ostream) (s : istream) (w : Val) (T : Ty) (x : Val) :
    (∃ next spent, (serializer.mk (some out)).pack w = .ok (next, spent) ∧
      next.stream_ = some (out ++ enc w) ∧
      (∀ w1, spent.pack w1 = .error (.runtime_error "[pack] Empty stream.")) ∧
      spent.to_buffer = .error (.runtime_error "[to_buffer] Empty stream.")) ∧
    (∃ y next spent, (deserializer.mk (some s)).unpack u T x = .ok (y, next, spent) ∧
      y = (deserializer.unpack_value u T x s).1 ∧
      next.stream_ = some (deserializer.unpack_value u T x s).2 ∧
      (∀ T1 x1, spent.unpack u T1 x1 = .error (.runtime_error "[unpack] Empty stream."))) := by
  refine ⟨⟨⟨some (out ++ enc w)⟩, ⟨none⟩, ?_, rfl, fun _ => rfl, rfl⟩,
    ⟨_, _, _, rfl, rfl, rfl, fun _ _ => rfl⟩⟩
  simp only [serializer.pack, pack_value_append w out]

/-- C17, as stated, fails: unpacking the encoding of the tuple holding the vector (1)
into a tuple destination whose vector position holds (7) leaves (7, 1) in that
position, prior elements followed by decoded ones, not the decoded element alone. -/
theorem tuple_decode_keeps_prior_elements :
    (from_buffer (enc (.tuple [.vector [.int 1]]))).unpack zero_bits (.tuple [.vector .int])
        (.tuple [.vector [.int 7]]) =
      .ok (.tuple [.vector [.int 7, .int 1]], ⟨some (istream.open_on [' ', ' '])⟩, ⟨none⟩) ∧
    (from_buffer (enc (.tuple [.vector [.int 1]]))).unpack zero_bits (.tuple [.vector .int])
        (.tuple [.vector [.int 7]]) ≠
      .ok (.tuple [.vector [.int 1]], ⟨some (istream.open_on [' ', ' '])⟩, ⟨none⟩) := by
  have h : (from_buffer (enc (.tuple [.vector [.int 1]]))).unpack zero_bits (.tuple [.vector .int])
      (.tuple [.vector [.int 7]]) =
      .ok (.tuple [.vector [.int 7, .int 1]], ⟨some (istream.open_on [' ', ' '])⟩, ⟨none⟩) := by
    rfl
  refine ⟨h, ?_⟩
  rw [h]
  intro e
  cases e

/-- C17, amended: unpacking a tuple decodes each position in order directly into the
corresponding position of the destination, with no tuple constructed in between.  After
unpacking the encoding of a well-formed tuple, a position of primitive, pair or
aggregate type holds the decoded element alone, a position that is itself a tuple is
treated in the same way, and a position of vector type holds its prior elements
followed by the decoded ones. -/
theorem tuple_decode_in_place (u : indeterminate) (ts : List Ty) (vs ds : List Val)
    (rest : List Char) (h : Val.well_formed (.tuple ts) (.tuple vs) = true) :
    (from_buffer (enc (.tuple vs) ++ rest)).unpack u (.tuple ts) (.tuple ds) =
        .ok (.tuple (Val.unpacked_into_list ts ds vs),
          ⟨some (istream.open_on (trailing_spaces (enc (.tuple vs)) ++ rest))⟩, ⟨none⟩) ∧
      (∀ s, deserializer.unpack_value u (.tuple ts) (.tuple ds) s =
        (.tuple (deserializer.unpack_tuple u ts ds s).1, (deserializer.unpack_tuple u ts ds s).2)) ∧
      (∀ T d v, T = .int ∨ T = .size ∨ T = .string → Val.unpacked_into T d v = v) ∧
      (∀ k v d x, Val.unpacked_into (.pair k v) d x = x) ∧
      (∀ fields d x, Val.unpacked_into (.aggregate fields) d x = x) ∧
      (∀ t p xs, Val.unpacked_into (.vector t) (.vector p) (.vector xs) = .vector (p ++ xs)) := by
  refine ⟨?_, ?_, unpacked_into_primitive, ?_, ?_, ?_⟩
  · have := unpack_value_into u (.tuple vs) (.tuple ts) h (.tuple ds) [] rest (by simp)
    simp only [List.nil_append] at this
    simp only [from_buffer, deserializer.unpack, this, Val.unpacked_into, Val.elems]
  · intro s
    simp only [deserializer.unpack_value, Val.elems]
  · intro k v d x
    cases x <;> simp [Val.unpacked_into]
  · intro fields d x
    cases x <;> simp [Val.unpacked_into]
  · intro t p xs
    simp [Val.unpacked_into, Val.elems]

theorem tuple_decode_in_place_witness :
    Val.well_formed (.tuple [.int, .vector .int]) (.tuple [.int 5, .vector [.int 1]]) = true ∧
      (from_buffer (enc (.tuple [.int 5, .vector [.int 1]]) ++ ['x'])).unpack zero_bits
          (.tuple [.int, .vector .int]) (.tuple [.int 9, .vector [.int 7]]) =
        .ok (.tuple (Val.unpacked_into_list [.int, .vector .int] [.int 9, .vector [.int 7]]
            [.int 5, .vector [.int 1]]),
          ⟨some (istream.open_on
            (trailing_spaces (enc (.tuple [.int 5, .vector [.int 1]])) ++ ['x']))⟩, ⟨none⟩) ∧
      Val.unpacked_into_list [.int, .vector .int] [.int 9, .vector [.int 7]]
          [.int 5, .vector [.int 1]] = [.int 5, .vector [.int 7, .int 1]] :=
  ⟨by decide,
    (tuple_decode_in_place zero_bits [.int, .vector .int] [.int 5, .vector [.int 1]]
      [.int 9, .vector [.int 7]] ['x'] (by decide)).1, rfl⟩

/-- C18: unpacking an aggregate destination with field shape (F1, ..., Fn) unpacks a
value-initialised tuple of that shape exactly as a tuple unpack does, leaving the
stream where that tuple unpack leaves it, and assigns the aggregate built from the
elements of the tuple in field order: field i of the result is element i of the tuple,
and nothing of the prior value of the destination remains. -/
theorem aggregate_decode (u : indeterminate) (fields : List Ty) (value : Val) (s : istream) :
    deserializer.unpack_value u (.aggregate fields) value s =
        (deserializer.make_from_tuple
            (deserializer.unpack_value u (.tuple fields) (Ty.value_init (.tuple fields)) s).1,
          (deserializer.unpack_value u (.tuple fields) (Ty.value_init (.tuple fields)) s).2) ∧
      (∃ vs, (deserializer.unpack_value u (.tuple fields) (Ty.value_init (.tuple fields)) s).1 =
          .tuple vs ∧
        (deserializer.unpack_value u (.aggregate fields) value s).1 = .aggregate vs) ∧
      (∀ other, deserializer.unpack_value u (.aggregate fields) other s =
        deserializer.unpack_value u (.aggregate fields) value s) := by
  refine ⟨?_, ⟨_, rfl, rfl⟩, fun _ => rfl⟩
  simp only [deserializer.unpack_value, Ty.value_init, Val.elems, deserializer.make_from_tuple]

/-- C19, as stated, fails: the buffer `1 a b ` holds the count 1 followed by the
encoding of the one string `a b`; unpacked into a vector that holds `p`, it leaves
(`p`, `a`) in the vector and the bytes ` b ` unread, where p ++ [x1] is (`p`, `a b`). -/
theorem collection_decode_splits_element :
    enc (.vector [.string ['a', ' ', 'b']]) =
        nat_text 1 ++ [' '] ++ enc (.string ['a', ' ', 'b']) ∧
      enc (.vector [.string ['a', ' ', 'b']]) = ['1', ' ', 'a', ' ', 'b', ' '] ∧
      (from_buffer (enc (.vector [.string ['a', ' ', 'b']]))).unpack zero_bits
          (.vector .string) (.vector [.string ['p']]) =
        .ok (.vector [.string ['p'], .string ['a']],
          ⟨some ⟨[' ', 'b', ' '], false, false⟩⟩, ⟨none⟩) ∧
      (from_buffer (enc (.vector [.string ['a', ' ', 'b']]))).unpack zero_bits
          (.vector .string) (.vector [.string ['p']]) ≠
        .ok (.vector ([.string ['p']] ++ [.string ['a', ' ', 'b']]),
          ⟨some ⟨[' ', 'b', ' '], false, false⟩⟩, ⟨none⟩) := by
  have h : (from_buffer (enc (.vector [.string ['a', ' ', 'b']]))).unpack zero_bits
      (.vector .string) (.vector [.string ['p']]) =
      .ok (.vector [.string ['p'], .string ['a']],
        ⟨some ⟨[' ', 'b', ' '], false, false⟩⟩, ⟨none⟩) := by rfl
  refine ⟨rfl, rfl, h, ?_⟩
  rw [h]
  intro e
  cases e

/-- C19, amended: collection decode appends and never clears.  For every vector
destination with prior content p and every buffer that holds a count token N followed by
the encodings of N well-formed elements x1..xN (integers in range, strings non-empty and
free of whitespace, keys in order), the destination after unpack is p ++ [x1, ..., xN],
which is the encoded collection only when p is empty.  Whatever the buffer holds, the
prior elements are kept unchanged as a prefix. -/
theorem collection_decode_appends (u : indeterminate) (t : Ty) (p xs : List Val)
    (rest : List Char) (hlen : xs.length ≤ SIZE_MAX)
    (hall : Val.well_formed_all t xs = true) :
    enc (.vector xs) = nat_text xs.length ++ [' '] ++ (xs.map enc).flatten ∧
      (from_buffer (enc (.vector xs) ++ rest)).unpack u (.vector t) (.vector p) =
        .ok (.vector (p ++ xs),
          ⟨some (istream.open_on (trailing_spaces (enc (.vector xs)) ++ rest))⟩, ⟨none⟩) ∧
      (p ++ xs = xs ↔ p = []) ∧
      (∀ s, ∃ ys,
        (deserializer.unpack_value u (.vector t) (.vector p) s).1 = .vector (p ++ ys)) := by
  refine ⟨?_, ?_, List.append_left_eq_self, ?_⟩
  · rw [(enc_iterable xs).1]
    simp [enc, serializer.pack_value]
  · have hw : Val.well_formed (.vector t) (.vector xs) = true := by
      simp only [Val.well_formed, Bool.and_eq_true, decide_eq_true_eq]
      exact ⟨hlen, hall⟩
    have := unpack_value_into u (.vector xs) (.vector t) hw (.vector p) [] rest (by simp)
    simp only [List.nil_append] at this
    simp only [from_buffer, deserializer.unpack, this, Val.unpacked_into, Val.elems]
  · intro s
    obtain ⟨ys, s1, _, h2⟩ := unpack_vector_append u t p s
    exact ⟨ys, by rw [h2]⟩

theorem collection_decode_appends_witness :
    ([.string ['a'], .string ['b']] : List Val).length ≤ SIZE_MAX ∧
      Val.well_formed_all .string [.string ['a'], .string ['b']] = true ∧
      (from_buffer (enc (.vector [.string ['a'], .string ['b']]) ++ ['x'])).unpack zero_bits
          (.vector .string) (.vector [.string ['p']]) =
        .ok (.vector ([.string ['p']] ++ [.string ['a'], .string ['b']]),
          ⟨some (istream.open_on
            (trailing_spaces (enc (.vector [.string ['a'], .string ['b']])) ++ ['x']))⟩,
          ⟨none⟩) :=
  ⟨by decide, by decide,
    (collection_decode_appends zero_bits .string [.string ['p']]
      [.string ['a'], .string ['b']] ['x'] (by decide) (by decide)).2.1⟩

end plain_text

end nanorpc.packer
